import Mathlib

/-!
Verification development for the TitanState persistence / time-travel core.

This file gives a shallow embedding, in Lean 4, of the parts of the code base
that the specification's claims are about:

* `packages/worker/src/patch.ts` — JSON-pointer paths, structural diff
  (`generatePatches`) and patch application (`applyPatch`, `applyPatches`);
* `packages/persist/src/chunking.ts` — `chunkData`, `reconstructData`,
  `getChunkKey`, `getChunkKeys`;
* `packages/persist/src/hydration.ts` — `persistAtom`;
* `packages/devtools/src/event-log.ts` — `EventLog` (`log`, `getEvents`,
  `clear`, snapshots);
* `packages/devtools/src/reconstruction.ts` — `StateReconstructor.reconstruct`.

Modelling conventions:

* JavaScript strings are modelled as `List Char` (`Str` below), so that the
  escape / split / join functions of the path codec can be reasoned about
  character by character.
* JavaScript numbers appearing in values and path segments are modelled as
  `Int`.  JS `Number(s)` on strings is modelled by `numParse`: the grammar
  accepted by `Number` (surrounding whitespace, signed decimals with
  fraction and exponent, `Infinity`, hex / octal / binary literals) is
  parsed exactly, so `jsNumericStr` decides `!isNaN(Number(s))` faithfully;
  when the exact parsed value is an integer `n` the model knows it
  (`jsNumber? s = some n`, and `Number(s)` is the double `n` whenever
  `|n| ≤ 2^53`), while numeric strings whose exact value is not an integer
  (`"1.5"`, `".5"`, `"Infinity"`) have no representable value in the `Int`
  universe (`jsNumber? s = none`).  Statements that depend on the *value* of
  such strings, or on integers beyond `±2^53` (where the double format
  rounds), carry hypotheses restricting them to the represented universe.
* JS arrays are modelled by their index elements (`vArr`).  Assigning a
  non-index key of an array (a negative, fractional or `≥ 2^32 - 1` index)
  creates a non-index property that none of the modelled operations can
  observe (`getValueAtPath` bounds-checks numeric indices, the diff walks
  indices and `Object.keys`, `JSON` drops such properties), so the model
  leaves the array unchanged at such assignments.
* JavaScript values are the inductive `Value`: `null`, `undefined`, booleans,
  (integer) numbers, strings, arrays, plain objects (ordered association
  lists, as JS objects preserve insertion order), and `ArrayBuffer`s
  (`vBuf`, a byte list).
* Exceptions are modelled with `Except String`.
* Asynchronous driver code is modelled by its sequential effect on an
  association-list driver state (the code awaits every driver call that
  matters for the claims considered here).
-/

/-- JavaScript strings, modelled as lists of characters. -/
abbrev Str := List Char

/-! ### Decimal rendering and parsing of integers (JS `String(n)` / `Number(s)`) -/

/-- Fuel-bounded digit expansion (fuel `n` suffices for `n` itself, and keeps
the definition computable by kernel reduction). -/
def natToStrAux : Nat → Nat → Str
  | 0, _ => []
  | fuel + 1, n => if n = 0 then [] else natToStrAux fuel (n / 10) ++ [Nat.digitChar (n % 10)]

/-- Decimal rendering of a natural number, most significant digit first. -/
def natToStr (n : Nat) : Str :=
  if n = 0 then ['0'] else natToStrAux n n

/-- Numeric value of a digit string, most significant digit first. -/
def charsVal (l : Str) : Nat :=
  l.foldl (fun a c => 10 * a + (c.toNat - 48)) 0

/-- Model of JavaScript `String(n)` for an integer-valued number `n`. -/
def intToStr (n : Int) : Str :=
  if n < 0 then '-' :: natToStr (-n).toNat else natToStr n.toNat

/-- The whitespace characters that JS `Number` strips around a numeric
string (`WhiteSpace` and `LineTerminator` code points). -/
def wsCharList : List Char :=
  [' ', '\t', '\n', '\r', Char.ofNat 0x0b, Char.ofNat 0x0c,
   Char.ofNat 0xa0, Char.ofNat 0x1680, Char.ofNat 0x2000, Char.ofNat 0x2001,
   Char.ofNat 0x2002, Char.ofNat 0x2003, Char.ofNat 0x2004, Char.ofNat 0x2005,
   Char.ofNat 0x2006, Char.ofNat 0x2007, Char.ofNat 0x2008, Char.ofNat 0x2009,
   Char.ofNat 0x200a, Char.ofNat 0x2028, Char.ofNat 0x2029, Char.ofNat 0x202f,
   Char.ofNat 0x205f, Char.ofNat 0x3000, Char.ofNat 0xfeff]

def jsWhitespace (c : Char) : Bool :=
  decide (c ∈ wsCharList)

/-- The outcome of JS `Number(s)` on a string, as far as the `Int` universe
can represent it: `nan` exactly when `isNaN(Number(s))`; `intVal n` when the
exact mathematical value of the numeric literal is the integer `n` (then
`Number(s)` is the double `n` whenever `|n| ≤ 2^53`); `nonInt` when the
string is numeric but its exact value is not an integer (fractions,
`Infinity`). -/
inductive NumParse where
  | nan
  | intVal (n : Int)
  | nonInt
  deriving DecidableEq, Repr

/-- An exponent suffix: empty, or `e`/`E` with an optional sign and decimal
digits (nothing may follow).  `none` means the literal is malformed. -/
def parseExp (r : Str) : Option Int :=
  match r with
  | [] => some 0
  | c :: r1 =>
    if c = 'e' ∨ c = 'E' then
      match r1 with
      | [] => none
      | d :: ds =>
        if d = '+' then
          if ds ≠ [] ∧ ds.all Char.isDigit then some ((charsVal ds : Nat) : Int) else none
        else if d = '-' then
          if ds ≠ [] ∧ ds.all Char.isDigit then some (-((charsVal ds : Nat) : Int)) else none
        else if (d :: ds).all Char.isDigit then some ((charsVal (d :: ds) : Nat) : Int)
        else none
    else none

/-- An unsigned decimal literal `digits [. digits] [exponent]` (digits
required on at least one side of the dot): the mantissa digit string `D` and
the decimal exponent `k`, so that the exact value is `D * 10^k`. -/
def parseDec (u : Str) : Option (Str × Int) :=
  let I := u.takeWhile Char.isDigit
  match u.dropWhile Char.isDigit with
  | c :: r1 =>
    if c = '.' then
      let F := r1.takeWhile Char.isDigit
      let r2 := r1.dropWhile Char.isDigit
      if I ++ F = [] then none
      else (parseExp r2).map fun e => (I ++ F, e - (F.length : Int))
    else if I = [] then none
    else (parseExp (c :: r1)).map fun e => (I, e)
  | [] => if I = [] then none else some (I, 0)

/-- Value of a digit in radix ≤ 16. -/
def hexDigitVal? (c : Char) : Option Nat :=
  if c.isDigit then some (c.toNat - 48)
  else if 'a' ≤ c ∧ c ≤ 'f' then some (c.toNat - 87)
  else if 'A' ≤ c ∧ c ≤ 'F' then some (c.toNat - 55)
  else none

/-- Value of a digit string in the given radix (`none` on an invalid digit). -/
def radixVal? (radix : Nat) (s : Str) : Option Nat :=
  s.foldl (fun acc c =>
    match acc, hexDigitVal? c with
    | some a, some d => if d < radix then some (radix * a + d) else none
    | _, _ => none) (some 0)

/-- A `0x` / `0b` / `0o` literal body (must be non-empty). -/
def parseRadix (radix : Nat) (s : Str) : NumParse :=
  if s = [] then .nan
  else
    match radixVal? radix s with
    | some n => .intVal (n : Int)
    | none => .nan

/-- An unsigned decimal literal or `Infinity`, classified per `NumParse`:
with mantissa `m` and exponent `k` the exact value `m * 10^k` is an integer
iff `m = 0`, `k ≥ 0`, or `10^(-k)` divides `m`. -/
def parseUnsigned (u : Str) : NumParse :=
  if u = ['I', 'n', 'f', 'i', 'n', 'i', 't', 'y'] then .nonInt
  else
    match parseDec u with
    | none => .nan
    | some (D, k) =>
      let m := charsVal D
      if m = 0 then .intVal 0
      else if 0 ≤ k then .intVal ((m * 10 ^ k.toNat : Nat) : Int)
      else if m % 10 ^ (-k).toNat = 0 then .intVal ((m / 10 ^ (-k).toNat : Nat) : Int)
      else .nonInt

/-- Model of JS `Number(s)` on strings (`ToNumber` on the string type): trim
whitespace; empty means `0`; a sign prefixes only a decimal literal or
`Infinity`; unsigned literals may also be hex / binary / octal. -/
def numParse (s : Str) : NumParse :=
  match ((s.dropWhile jsWhitespace).reverse.dropWhile jsWhitespace).reverse with
  | [] => .intVal 0
  | c :: u =>
    if c = '+' then parseUnsigned u
    else if c = '-' then
      match parseUnsigned u with
      | .intVal n => .intVal (-n)
      | r => r
    else if c = '0' then
      match u with
      | [] => .intVal 0
      | d :: rest =>
        if d = 'x' ∨ d = 'X' then parseRadix 16 rest
        else if d = 'b' ∨ d = 'B' then parseRadix 2 rest
        else if d = 'o' ∨ d = 'O' then parseRadix 8 rest
        else parseUnsigned (c :: u)
    else parseUnsigned (c :: u)

/-- `!isNaN(Number(s))`: `s` is a string `Number` parses (including `""` and
whitespace-only strings, which parse to `0`). -/
def jsNumericStr (s : Str) : Bool :=
  match numParse s with
  | .nan => false
  | _ => true

/-- The exact integer value of `Number(s)`, when it has one in the `Int`
universe: `some n` means the literal's exact value is the integer `n`
(`Number("") = 0`); `none` covers both `NaN` and numeric strings whose value
is not an integer. -/
def jsNumber? (l : Str) : Option Int :=
  match numParse l with
  | .intVal n => some n
  | _ => none

/-- `true` exactly when the `stringToPath` check
`!isNaN(Number(s)) && String(Number(s)) === s` succeeds *and* the value is
within `±2^53` (beyond that the double format may round the parsed integer,
so the model never certifies canonicity there — such strings decode to
numbers outside the model's `Int` universe anyway). -/
def isCanonicalNum (s : Str) : Bool :=
  match jsNumber? s with
  | some k => decide (k.natAbs ≤ 2 ^ 53) && decide (intToStr k = s)
  | none => false

/-! ### Chunking pipeline (`packages/persist/src/chunking.ts`) -/

/-- A chunk descriptor: `{ index: number; data: ArrayBuffer }`. -/
structure Chunk where
  index : Nat
  data : List Nat
  deriving DecidableEq, Repr

/-- `chunkData(data, {chunkSize})`: the source loops `i = 0, S, 2S, …` while
`i < data.length`, emitting `{ index: i / S, data: view.slice(i, i + S) }`;
equivalently, iteration `j` (of `⌈L/S⌉` iterations) yields index `j` and the
bytes `[j*S, j*S + S)`.  (With `S = 0` the source loop would not terminate;
the claims only concern `S > 0`.) -/
def chunkData (data : List Nat) (chunkSize : Nat) : List Chunk :=
  (List.range ((data.length + chunkSize - 1) / chunkSize)).map fun j =>
    { index := j, data := (data.drop (j * chunkSize)).take chunkSize }

/-- The ascending-index comparator `(a, b) => a.index - b.index` used by
`reconstructData`'s sort. -/
def chunkLE (a b : Chunk) : Prop := a.index ≤ b.index

instance : DecidableRel chunkLE := fun _ _ => inferInstanceAs (Decidable (_ ≤ _))

instance : IsTotal Chunk chunkLE := ⟨fun a b => Nat.le_total a.index b.index⟩

instance : IsTrans Chunk chunkLE := ⟨fun _ _ _ h h' => Nat.le_trans h h'⟩

/-- `reconstructData(chunks)`: sort the chunks by index (JS `sort` with the
comparator above; stable, which `insertionSort` also is) and concatenate
their byte ranges. -/
def reconstructData (chunks : List Chunk) : List Nat :=
  ((List.insertionSort chunkLE chunks).map Chunk.data).flatten

/-- Zero-padding to width 6 (`String(index).padStart(6, '0')`). -/
def pad6 (n : Nat) : Str :=
  List.replicate (6 - (natToStr n).length) '0' ++ natToStr n

/-- `getChunkKey(baseKey, index)`: `` `${baseKey}:chunk:${pad6(index)}` ``.
Every call site uses the default chunk marker `'chunk'`, which is fixed here. -/
def getChunkKey (baseKey : Str) (index : Nat) : Str :=
  baseKey ++ (":chunk:").toList ++ pad6 index

/-- JS `a.startsWith(b)`. -/
def keyStartsWith : Str → Str → Bool
  | _, [] => true
  | [], _ :: _ => false
  | c :: k, d :: p => c = d && keyStartsWith k p

/-- JS default string comparison (code-unit lexicographic `≤`), used by the
`sort()` in `getChunkKeys`. -/
def strLe : Str → Str → Bool
  | [], _ => true
  | _ :: _, [] => false
  | a :: as, b :: bs => if a = b then strLe as bs else decide (a < b)

/-- The `≤` relation behind `strLe`, for `insertionSort`. -/
def strLeRel (a b : Str) : Prop := strLe a b = true

instance : DecidableRel strLeRel := fun _ _ => inferInstanceAs (Decidable (_ = _))

/-- `getChunkKeys(baseKey, keys)`: the keys that start with
`` `${baseKey}:chunk:` ``, sorted lexically. -/
def getChunkKeys (baseKey : Str) (keys : List Str) : List Str :=
  List.insertionSort strLeRel
    (keys.filter fun k => keyStartsWith k (baseKey ++ (":chunk:").toList))

/-! ### JSON-pointer path codec (`packages/worker/src/patch.ts`, lines 10–57) -/

/-- A path segment: `string | number` (numbers restricted to integers, see the
header comment). -/
inductive Seg where
  | str (s : Str)
  | num (n : Int)
  deriving DecidableEq, Repr

/-- `escapePath`: `path.replace(/~/g, '~0').replace(/\//g, '~1')`.  Both
patterns are single characters, so the two global replacements amount to a
per-character expansion. -/
def escapePath (s : Str) : Str :=
  s.flatMap fun c => if c = '~' then ['~', '0'] else if c = '/' then ['~', '1'] else [c]

/-- One global two-character replacement `replace(/ab/g, r)`: scan left to
right, replacing each non-overlapping occurrence of `a` followed by `b`. -/
def replacePair (a b r : Char) : Str → Str
  | x :: y :: rest =>
    if x = a ∧ y = b then r :: replacePair a b r rest
    else x :: replacePair a b r (y :: rest)
  | l => l

/-- `unescapePath`: `path.replace(/~1/g, '/').replace(/~0/g, '~')`. -/
def unescapePath (s : Str) : Str :=
  replacePair '~' '0' '~' (replacePair '~' '1' '/' s)

/-- The first replacement of `unescapePath` turns every encoded `'/'`
(`"~1"`) back into `'/'` and leaves encoded `'~'` (`"~0"`) alone. -/
def escapeTildeOnly (s : Str) : Str :=
  s.flatMap fun c => if c = '~' then ['~', '0'] else [c]

/-- JS `String(segment)`. -/
def segToString : Seg → Str
  | .str s => s
  | .num n => intToStr n

/-- `pathToString(path)`: empty path encodes to `""`; otherwise `'/'` followed
by the escaped segments joined with `'/'`. -/
def joinSep : List Str → Str
  | [] => []
  | [s] => s
  | s :: rest => s ++ '/' :: joinSep rest

def pathToString (path : List Seg) : Str :=
  if path = [] then []
  else '/' :: joinSep (path.map fun seg => escapePath (segToString seg))

/-- JS `s.split('/')` for the single-character separator. -/
def splitSep : Str → List Str
  | [] => [[]]
  | c :: rest =>
    if c = '/' then [] :: splitSep rest
    else
      match splitSep rest with
      | [] => [[c]]
      | s :: ss => (c :: s) :: ss

/-- Decoding of one split segment inside `stringToPath`: unescape, then try
`Number`; keep the number only when `!isNaN(num) && String(num) === unescaped`.
The model certifies that check exactly when the exact integer value is within
`±2^53` (`isCanonicalNum`); numeric segments it does not convert — canonical
renderings of non-integer or `> 2^53` doubles such as `"1.5"` or `"1e+30"` —
decode in JS to numbers outside the model's `Int` universe, and every claim
about `stringToPath` excludes them by hypothesis. -/
def decodeSeg (seg : Str) : Seg :=
  let u := unescapePath seg
  match jsNumber? u with
  | some k => if k.natAbs ≤ 2 ^ 53 ∧ intToStr k = u then .num k else .str u
  | none => .str u

/-- `stringToPath(path)`: `''` and `'/'` decode to the empty path; otherwise
split on `'/'`, drop the leading segment (`slice(1)`), and decode each part. -/
def stringToPath (s : Str) : List Seg :=
  if s = [] ∨ s = ['/'] then []
  else ((splitSep s).drop 1).map decodeSeg

/-! ### The value universe and patch operations -/

/-- Tree-shaped JS values (see the header comment for the universe).  Object
fields are an ordered association list, matching JS insertion-order keys. -/
inductive Value where
  | vNull
  | vUndef
  | vBool (b : Bool)
  | vNum (n : Int)
  | vStr (s : Str)
  | vArr (xs : List Value)
  | vObj (fields : List (Str × Value))
  | vBuf (bytes : List Nat)
  deriving Repr

open Value

/-- The result of JS `typeof` on the universe (as a small enum rather than a
string; `typeof null` is `'object'`). -/
inductive JsType where
  | undefinedT | objectT | booleanT | numberT | stringT
  deriving DecidableEq, Repr

def jsTypeof : Value → JsType
  | vNull => .objectT
  | vUndef => .undefinedT
  | vBool _ => .booleanT
  | vNum _ => .numberT
  | vStr _ => .stringT
  | vArr _ => .objectT
  | vObj _ => .objectT
  | vBuf _ => .objectT

/-- `v === null || v === undefined`. -/
def isNullish : Value → Bool
  | vNull => true
  | vUndef => true
  | _ => false

/-- `typeof v === 'object' && v !== null` (and, where used, not an array). -/
def isObjectLike : Value → Bool
  | vArr _ => true
  | vObj _ => true
  | vBuf _ => true
  | _ => false

/-- Fuel-bounded structural equality on values.  `Object.is` compares object
references in JS; the diff models it as structural equality (for structurally
equal values the JS recursion emits no patches either, so the emitted patch
list is the same).  Callers pass fuel at least the structural size of the
compared pair, so the `0` case is never reached. -/
def sameValueF : Nat → Value → Value → Bool
  | 0, _, _ => false
  | _ + 1, vNull, vNull => true
  | _ + 1, vUndef, vUndef => true
  | _ + 1, vBool a, vBool b => a = b
  | _ + 1, vNum a, vNum b => a = b
  | _ + 1, vStr a, vStr b => a = b
  | fuel + 1, vArr xs, vArr ys =>
    xs.length = ys.length && (xs.zip ys).all fun p => sameValueF fuel p.1 p.2
  | fuel + 1, vObj xs, vObj ys =>
    xs.length = ys.length &&
      (xs.zip ys).all fun p => p.1.1 = p.2.1 && sameValueF fuel p.1.2 p.2.2
  | _ + 1, vBuf a, vBuf b => a = b
  | _ + 1, _, _ => false

mutual

/-- Structural size of a value; used only to provide sufficient recursion
fuel for the diff (`generatePatches`). -/
def valueSize : Value → Nat
  | vNull => 1
  | vUndef => 1
  | vBool _ => 1
  | vNum _ => 1
  | vStr _ => 1
  | vArr xs => 1 + valueListSize xs
  | vObj fs => 1 + valueFieldsSize fs
  | vBuf _ => 1

def valueListSize : List Value → Nat
  | [] => 0
  | v :: vs => 1 + valueSize v + valueListSize vs

def valueFieldsSize : List (Str × Value) → Nat
  | [] => 0
  | (_, v) :: fs => 1 + valueSize v + valueFieldsSize fs

end

/-- Patch operations (`PatchOp` in `packages/types`).  `splice` carries an
`index` field that `applyPatch` never reads (it takes the index from the last
path segment); it is kept for fidelity to the type. -/
inductive PatchOp where
  | set (path : Str) (value : Value)
  | delete (path : Str)
  | splice (path : Str) (index : Int) (deleteCount : Int) (items : Option (List Value))
  | binaryChunk (path : Str) (offset : Int) (data : List Nat)
  deriving Repr

/-! ### Reading and writing values at paths (`patch.ts`, lines 62–174) -/

/-- Association-list lookup; a missing key reads as `undefined` in JS. -/
def lookupField : List (Str × Value) → Str → Value
  | [], _ => vUndef
  | (k, v) :: rest, key => if k = key then v else lookupField rest key

/-- JS `obj[key] = v` on a plain object: replaces the value of an existing key
in place, otherwise appends the key (insertion order). -/
def setField : List (Str × Value) → Str → Value → List (Str × Value)
  | [], key, v => [(key, v)]
  | (k, w) :: rest, key, v =>
    if k = key then (key, v) :: rest else (k, w) :: setField rest key v

/-- JS `delete obj[key]`. -/
def deleteField : List (Str × Value) → Str → List (Str × Value)
  | [], _ => []
  | (k, w) :: rest, key =>
    if k = key then deleteField rest key else (k, w) :: deleteField rest key

/-- The array index of a segment inside the traversal functions:
`typeof segment === 'number' ? segment : Number(segment)`; `none` is `NaN`. -/
def segIdx? : Seg → Option Int
  | .num n => some n
  | .str s => jsNumber? s

/-- Element `i` of a JS array; out-of-range (or hole) reads give `undefined`. -/
def jsIndex (xs : List Value) (i : Int) : Value :=
  if h : 0 ≤ i ∧ i.toNat < xs.length then xs[i.toNat] else vUndef

/-- JS `arr[n] = v` for `n ≥ 0` inside a copied array: in-range assignment
replaces the element; past-the-end assignment pads with holes, which read as
`undefined` and which `[...arr]` copies as `undefined` values. -/
def padAssign (xs : List Value) (n : Nat) (v : Value) : List Value :=
  if n < xs.length then xs.set n v
  else xs ++ List.replicate (n - xs.length) vUndef ++ [v]

/-- `getValueAtPath(obj, path)`: walk the segments; `null`/`undefined` and
scalars stop the walk with `undefined`; objects (and `ArrayBuffer`s, which
have no own enumerable properties) are indexed by `String(segment)`; arrays
by the numeric index, with `NaN` / out-of-range giving `undefined`. -/
def getValueAtPath : Value → List Seg → Value
  | v, [] => v
  | vNull, _ :: _ => vUndef
  | vUndef, _ :: _ => vUndef
  | vObj fields, seg :: rest => getValueAtPath (lookupField fields (segToString seg)) rest
  | vBuf _, _ :: rest => getValueAtPath vUndef rest
  | vArr xs, seg :: rest =>
    match segIdx? seg with
    | none => vUndef
    | some i => if 0 ≤ i ∧ i.toNat < xs.length then getValueAtPath (jsIndex xs i) rest else vUndef
  | _, _ :: _ => vUndef

/-- `setValueAtPath(obj, path, value)` (immutable).  On arrays, a final
segment assigns in range or pushes at exactly the length (otherwise the copy
is returned unchanged); an interior segment assigns the recursive result at
the index when the index is a valid array index (`0 ≤ i < 2^32 - 1`);
negative, fractional, too-large or `NaN` indices create non-index properties
that none of the modelled operations can observe, so the array is unchanged
in the model.  On objects (and `ArrayBuffer`s, whose spread `{...buf}` is an
empty object) the key `String(head)` is assigned.  On scalars/nullish values
the source tests `typeof head === 'number' || (!isNaN(Number(head)) &&
tail.length > 0)`: a number head, or any `Number`-parseable string head with
a non-empty tail, creates a fresh array (with a valid integer index the
recursive result lands at that index; otherwise only a non-index property,
so the array stays empty in the model); every other head creates a fresh
one-key object. -/
def setValueAtPath : Value → List Seg → Value → Value
  | _, [], value => value
  | vArr xs, head :: tail, value =>
    match segIdx? head with
    | none => vArr xs
    | some i =>
      if tail = [] then
        if 0 ≤ i ∧ i.toNat < xs.length then vArr (xs.set i.toNat value)
        else if i = (xs.length : Int) then vArr (xs ++ [value])
        else vArr xs
      else
        if 0 ≤ i ∧ i < 4294967295 then
          vArr (padAssign xs i.toNat (setValueAtPath (jsIndex xs i) tail value))
        else vArr xs
  | vObj fields, head :: tail, value =>
    if tail = [] then vObj (setField fields (segToString head) value)
    else
      vObj (setField fields (segToString head)
        (setValueAtPath (lookupField fields (segToString head)) tail value))
  | vBuf _, head :: tail, value =>
    if tail = [] then vObj [(segToString head, value)]
    else vObj [(segToString head, setValueAtPath vUndef tail value)]
  | _, head :: tail, value =>
    match head with
    | .num i =>
      if 0 ≤ i ∧ i < 4294967295 then
        vArr (List.replicate i.toNat vUndef ++ [setValueAtPath vUndef tail value])
      else vArr []
    | .str s =>
      if jsNumericStr s ∧ tail ≠ [] then
        match jsNumber? s with
        | some i =>
          if 0 ≤ i ∧ i < 4294967295 then
            vArr (List.replicate i.toNat vUndef ++ [setValueAtPath vUndef tail value])
          else vArr []
        | none => vArr []
      else vObj [(s, setValueAtPath vUndef tail value)]

/-- The start-position normalisation of `Array.prototype.splice`:
`NaN` becomes `0`, negative indices count from the end (clamped at `0`),
positive indices are clamped at the length. -/
def spliceStart (len : Nat) (idx : Option Int) : Nat :=
  match idx with
  | none => 0
  | some i => if i < 0 then ((len : Int) + i).toNat else min i.toNat len

/-- `arr.splice(idx, 1)` on a copy (used by `deleteValueAtPath`). -/
def jsSpliceRemoveOne (xs : List Value) (idx : Option Int) : List Value :=
  let start := spliceStart xs.length idx
  xs.take start ++ xs.drop (start + 1)

/-- `deleteValueAtPath(obj, path)` (immutable); an empty path deletes the
whole value (`undefined`); arrays use `splice(index, 1)` at the final
segment and assign the recursive result at an interior index (valid array
indices only, as in `setValueAtPath`); objects use `delete`; other values
are returned unchanged. -/
def deleteValueAtPath : Value → List Seg → Value
  | _, [] => vUndef
  | vArr xs, head :: tail =>
    if tail = [] then vArr (jsSpliceRemoveOne xs (segIdx? head))
    else
      match segIdx? head with
      | none => vArr xs
      | some i =>
        if 0 ≤ i ∧ i < 4294967295 then
          vArr (padAssign xs i.toNat (deleteValueAtPath (jsIndex xs i) tail))
        else vArr xs
  | vObj fields, head :: tail =>
    if tail = [] then vObj (deleteField fields (segToString head))
    else
      vObj (setField fields (segToString head)
        (deleteValueAtPath (lookupField fields (segToString head)) tail))
  | vBuf _, head :: tail =>
    if tail = [] then vObj []
    else vObj [(segToString head, deleteValueAtPath vUndef tail)]
  | v, _ :: _ => v

/-- The property key `"__proto__"`.  Assigning it on a plain object whose
own properties do not include it invokes the `Object.prototype.__proto__`
accessor (setting the prototype for object values, silently ignoring
primitives) instead of creating an entry, so the set-then-read claim
excludes it as a map key. -/
def protoKey : Str := ['_', '_', 'p', 'r', 'o', 't', 'o', '_', '_']

/-- The domain on which `Set(p, x)` makes `x` readable back at `p` (see the
cases of `setValueAtPath`): paths into objects and `ArrayBuffer`s with any
key other than `"__proto__"` (see `protoKey`); on an existing sequence the
segment must denote an exact integer array index (`0 ≤ i < 2^32 - 1`), and
a *final* segment must address an index at most the length (`<` replaces,
`=` appends); on scalars/nullish values a fresh container is created — a
final string head or a non-`Number`-parseable string head makes a one-key
object, a number head or an integer-valued numeric-string head makes an
array (valid index required).  Excluded in particular:
`Number`-parseable string heads with a non-integer value (such as `"1.5"`)
before a non-empty tail — the source then creates an array and stores the
value under a non-index property, where the read-back yields `undefined`. -/
def setReadOk : Value → List Seg → Bool
  | _, [] => true
  | Value.vArr xs, seg :: rest =>
    (match segIdx? seg with
     | none => false
     | some i =>
       if rest = [] then
         decide (0 ≤ i) && decide (i ≤ (xs.length : Int)) && decide (i < 4294967295)
       else decide (0 ≤ i) && decide (i < 4294967295) && setReadOk (jsIndex xs i) rest)
  | Value.vObj fields, seg :: rest =>
    decide (segToString seg ≠ protoKey) &&
      (if rest = [] then true else setReadOk (lookupField fields (segToString seg)) rest)
  | Value.vBuf _, seg :: rest =>
    decide (segToString seg ≠ protoKey) &&
      (if rest = [] then true else setReadOk Value.vUndef rest)
  | _, seg :: rest =>
    (match seg with
     | .num i => decide (0 ≤ i) && decide (i < 4294967295) && setReadOk Value.vUndef rest
     | .str s =>
       if rest = [] then decide (s ≠ protoKey)
       else if jsNumericStr s then
         match jsNumber? s with
         | some i => decide (0 ≤ i) && decide (i < 4294967295) && setReadOk Value.vUndef rest
         | none => false
       else decide (s ≠ protoKey) && setReadOk Value.vUndef rest)

/-! ### Patch application (`patch.ts`, lines 179–246) -/

/-- Full `Array.prototype.splice(start, deleteCount, ...items)` on a copy:
start normalised as in `spliceStart`, delete count clamped to
`[0, len - start]`. -/
def jsSplice (xs : List Value) (idx : Option Int) (deleteCount : Int) (items : List Value) :
    List Value :=
  let start := spliceStart xs.length idx
  let removed := (min (max deleteCount 0) ((xs.length : Int) - start)).toNat
  xs.take start ++ items ++ xs.drop (start + removed)

/-- `applyPatch(obj, patch)`; a thrown error is an `Except.error`. -/
def applyPatch (obj : Value) (patch : PatchOp) : Except String Value :=
  match patch with
  | .set p value => .ok (setValueAtPath obj (stringToPath p) value)
  | .delete p => .ok (deleteValueAtPath obj (stringToPath p))
  | .splice p _ deleteCount items =>
    let path := stringToPath p
    match obj with
    | vArr _ =>
      let arrayPath := path.dropLast
      let array := getValueAtPath obj arrayPath
      -- `path[path.length - 1]` is `undefined` for an empty path, and
      -- `Number(undefined)` is `NaN`.
      let idx : Option Int :=
        match path.getLast? with
        | none => none
        | some seg => segIdx? seg
      match array with
      | vArr xs =>
        .ok (setValueAtPath obj arrayPath (vArr (jsSplice xs idx deleteCount (items.getD []))))
      | _ => .error "splice operation requires array at path"
    | _ => .error "splice operation requires array at path"
  | .binaryChunk p offset data =>
    let path := stringToPath p
    match getValueAtPath obj path with
    | vBuf bytes =>
      -- `view.set(chunk, offset)` throws a RangeError when the chunk does
      -- not fit inside the copied buffer.
      if offset < 0 ∨ bytes.length < offset.toNat + data.length then
        .error "offset is out of bounds"
      else
        .ok (setValueAtPath obj path
          (vBuf (bytes.take offset.toNat ++ data ++ bytes.drop (offset.toNat + data.length))))
    | _ => .error "binary-chunk operation requires ArrayBuffer at path"

/-- `applyPatches(obj, patches)`: sequential left fold; a thrown error aborts
the remaining applications and propagates to the caller. -/
def applyPatches (obj : Value) : List PatchOp → Except String Value
  | [] => .ok obj
  | patch :: rest =>
    match applyPatch obj patch with
    | .ok next => applyPatches next rest
    | .error e => .error e

/-! ### Structural diff (`patch.ts`, lines 252–355) -/

/-- `Object.keys(v)` on the universe: own enumerable keys — field names for a
plain object, the canonical index strings for an array, none for an
`ArrayBuffer` (no own enumerable properties) or a primitive. -/
def jsKeys : Value → List Str
  | vObj fields => fields.map Prod.fst
  | vArr xs => (List.range xs.length).map natToStr
  | _ => []

/-- Raw JS property access `v[key]` for a string key, as used by the object
branch of the diff: object field lookup; canonical-index access on arrays;
`undefined` otherwise. -/
def getProp (v : Value) (key : Str) : Value
  := match v with
  | vObj fields => lookupField fields key
  | vArr xs =>
    match jsNumber? key with
    | some i => if 0 ≤ i ∧ i.toNat < xs.length ∧ intToStr i = key then jsIndex xs i else vUndef
    | none => vUndef
  | _ => vUndef

/-- A `set` op at an (array-form) path. -/
def setOpAt (base : List Seg) (v : Value) : PatchOp := .set (pathToString base) v

/-- A `delete` op at an (array-form) path. -/
def deleteOpAt (base : List Seg) : PatchOp := .delete (pathToString base)

/-- Fuel-bounded body of `generatePatches(oldObj, newObj, basePath)`.  In
branch order: `Object.is` short-circuit; nullness mismatch → `set`; `typeof`
mismatch → `set`; both arrays → per-index loop over `0 ..
max(len(old), len(new))` (`set` for indices only in the new array, `delete`
for indices only in the old one, recursion otherwise); both non-null objects
→ `delete` for removed keys, then `set` for added keys and recursion for
common keys, in `Object.keys` order; otherwise → `set`.  The fuel passed by
the `generatePatches` wrapper strictly exceeds the recursion depth, so the
`0` case is never reached. -/
def generatePatchesF : Nat → Value → Value → List Seg → List PatchOp
  | 0, _, _, _ => []
  | fuel + 1, oldObj, newObj, basePath =>
    if sameValueF (fuel + 1) oldObj newObj then []
    else if isNullish oldObj ≠ isNullish newObj then [setOpAt basePath newObj]
    else if jsTypeof oldObj ≠ jsTypeof newObj then [setOpAt basePath newObj]
    else
      match oldObj, newObj with
      | vArr xs, vArr ys =>
        (List.range (max xs.length ys.length)).flatMap fun i =>
          if xs.length ≤ i then [setOpAt (basePath ++ [.num i]) (ys.getD i vUndef)]
          else if ys.length ≤ i then [deleteOpAt (basePath ++ [.num i])]
          else
            generatePatchesF fuel (xs.getD i vUndef) (ys.getD i vUndef) (basePath ++ [.num i])
      | o, n =>
        if isObjectLike o ∧ isObjectLike n then
          let oldKeys := jsKeys o
          let newKeys := jsKeys n
          ((oldKeys.filter fun k => ¬ newKeys.contains k).map fun k =>
            deleteOpAt (basePath ++ [.str k]))
          ++ newKeys.flatMap fun k =>
            if ¬ oldKeys.contains k then [setOpAt (basePath ++ [.str k]) (getProp n k)]
            else generatePatchesF fuel (getProp o k) (getProp n k) (basePath ++ [.str k])
        else [setOpAt basePath n]

/-- `generatePatches(oldObj, newObj, basePath = [])`.  Each recursive call of
the source descends into a strictly smaller value on both sides, so the
combined structural size bounds the recursion depth and this fuel is never
exhausted. -/
def generatePatches (oldObj newObj : Value) (basePath : List Seg) : List PatchOp :=
  generatePatchesF (valueSize oldObj + valueSize newObj) oldObj newObj basePath

/-! ### Storage driver state and `persistAtom` (`hydration.ts`, lines 100–159) -/

/-- The driver's key-value state, as an insertion-ordered association list
(all the claims need of the `Driver` capability is `put` / `delete` /
`keys`).  Stored values are byte buffers. -/
abbrev DriverState := List (Str × List Nat)

def driverKeys (st : DriverState) : List Str := st.map Prod.fst

def driverPut (st : DriverState) (key : Str) (v : List Nat) : DriverState :=
  if (driverKeys st).contains key then
    st.map fun p => if p.1 = key then (key, v) else p
  else st ++ [(key, v)]

def driverDelete (st : DriverState) (key : Str) : DriverState :=
  st.filter fun p => p.1 ≠ key

def driverHas (st : DriverState) (key : Str) : Bool :=
  (driverKeys st).contains key

/-- The atom metadata consumed by `persistAtom`. -/
structure AtomMeta where
  key : Option Str
  hydrated : Bool
  persisted : Bool
  lastAccessed : Option Nat
  size : Option Nat
  deriving Repr

/-- The slice of an `Atom` that `persistAtom` reads and writes. -/
structure ModelAtom where
  value : Option Value
  meta : AtomMeta
  deriving Repr

/-- Default chunk threshold: 10 MiB. -/
def DEFAULT_CHUNK_THRESHOLD : Nat := 10 * 1024 * 1024

/-- `persistAtom(atom, driver, options)`.  `encode` stands for
`JSON.stringify` + `TextEncoder` (serialisation is abstract in the model) and
`compressFn` for the awaited result of `compress` when a compression
algorithm other than `'none'` is configured (`useCompression`); `compress`
may be a pass-through, which `compressFn` subsumes.  Returns the driver state
after the awaited puts/deletes together with the updated atom.  Steps, as in
the source: skip non-persisted/valueless atoms; serialise; compress; if the
byte length exceeds the chunk threshold, split into chunks of the threshold
size, delete all existing chunk keys for the base key, put the new chunk
keys, delete the single-value key; otherwise delete all existing chunk keys
and put the single value; finally update the atom metadata. -/
def persistAtom (encode : Value → List Nat) (compressFn : List Nat → List Nat)
    (useCompression : Bool) (atom : ModelAtom) (st : DriverState)
    (chunkThreshold : Nat) (now : Nat) : DriverState × ModelAtom :=
  match atom.meta.persisted, atom.meta.key, atom.value with
  | true, some storageKey, some v =>
    let serialized := encode v
    let compressed := if useCompression then compressFn serialized else serialized
    let newAtom : ModelAtom :=
      { atom with
        meta :=
          { atom.meta with
            hydrated := true
            lastAccessed := some now
            size := some compressed.length } }
    if chunkThreshold < compressed.length then
      let chunks := chunkData compressed chunkThreshold
      let oldChunkKeys := getChunkKeys storageKey (driverKeys st)
      let st1 := oldChunkKeys.foldl driverDelete st
      let st2 := chunks.foldl (fun acc c => driverPut acc (getChunkKey storageKey c.index) c.data) st1
      let st3 := driverDelete st2 storageKey
      (st3, newAtom)
    else
      let oldChunkKeys := getChunkKeys storageKey (driverKeys st)
      let st1 := oldChunkKeys.foldl driverDelete st
      let st2 := driverPut st1 storageKey compressed
      (st2, newAtom)
  | _, _, _ => (st, atom)

/-! ### Event log (`packages/devtools/src/event-log.ts`) -/

/-- The eight DevTools event types. -/
inductive EvType where
  | dispatch | patch | hydration | workerJob | queryEvent
  | atomUpdate | transactionStart | transactionEnd
  deriving DecidableEq, Repr

/-- A logged event.  `newValue` is the `AtomUpdateEvent.newValue` payload
(`vUndef` both for an absent field and for an explicit `undefined`, which JS
property assignment cannot distinguish); the remaining payload fields are not
read by any modelled operation. -/
structure DevEvent where
  seq : Nat
  ts : Nat
  type : EvType
  target : Option Str
  newValue : Value
  deriving Repr

/-- A `StateSnapshot`: timestamp, sequence number, and the atom keys observed
in the retained events. -/
structure StateSnapshot where
  timestamp : Nat
  seq : Nat
  atomKeys : List Str
  deriving DecidableEq, Repr

/-- The `EventLog` configuration (`maxInMemoryEvents`, defaulting to 10000,
and `snapshotInterval`, defaulting to 1000).  The `persist`/`driver` options
only mirror events to storage, which no claim about the in-memory log
observes, so they are not part of the model. -/
structure EventLogConfig where
  maxInMemoryEvents : Nat
  snapshotInterval : Nat
  deriving DecidableEq, Repr

/-- The in-memory state of an `EventLog`. -/
structure EventLog where
  events : List DevEvent
  sequenceNumber : Nat
  snapshots : List StateSnapshot
  deriving Repr

/-- A fresh `EventLog`. -/
def EventLog.initial : EventLog := ⟨[], 0, []⟩

/-- The input to `log()`: an event without `seq` and `ts`. -/
structure EventInput where
  type : EvType
  target : Option Str
  newValue : Value
  deriving Repr

/-- `extractAtomKeys()`: the distinct `target` keys of the retained events,
in first-occurrence order (`Set` insertion order). -/
def extractAtomKeys (events : List DevEvent) : List Str :=
  events.foldl
    (fun acc e =>
      match e.target with
      | some t => if acc.contains t then acc else acc ++ [t]
      | none => acc)
    []

/-- One `log(event)` call at time `now`: assign `seq := ++sequenceNumber` and
`ts`, append, drop the oldest events over `maxInMemoryEvents`, and create a
snapshot when `seq % snapshotInterval === 0` (in JS, `seq % 0` is `NaN`,
which never equals `0`; in Lean `seq % 0 = seq ≠ 0` likewise fails for the
positive `seq`, so the translation agrees).  The optional driver mirroring
does not touch the in-memory state. -/
def EventLog.logStep (cfg : EventLogConfig) (s : EventLog) (inp : EventInput) (now : Nat) :
    EventLog :=
  let seq1 := s.sequenceNumber + 1
  let fullEvent : DevEvent := ⟨seq1, now, inp.type, inp.target, inp.newValue⟩
  let appended := s.events ++ [fullEvent]
  let retained :=
    if cfg.maxInMemoryEvents < appended.length then
      appended.drop (appended.length - cfg.maxInMemoryEvents)
    else appended
  let snaps :=
    if seq1 % cfg.snapshotInterval = 0 then
      s.snapshots ++ [⟨now, seq1, extractAtomKeys retained⟩]
    else s.snapshots
  ⟨retained, seq1, snaps⟩

/-- Run a sequence of `log` calls (each paired with its `Date.now()` value)
from a given state. -/
def EventLog.run (cfg : EventLogConfig) : EventLog → List (EventInput × Nat) → EventLog
  | s, [] => s
  | s, (inp, now) :: rest => EventLog.run cfg (EventLog.logStep cfg s inp now) rest

/-- The `seq` values assigned by a sequence of `log` calls, in call order. -/
def EventLog.seqTrace (cfg : EventLogConfig) : EventLog → List (EventInput × Nat) → List Nat
  | _, [] => []
  | s, (inp, now) :: rest =>
    (s.sequenceNumber + 1) :: EventLog.seqTrace cfg (EventLog.logStep cfg s inp now) rest

/-- `getEvents(startSeq?, endSeq?, eventType?)`: the retained events,
filtered in order by `seq ≥ startSeq`, `seq ≤ endSeq` and event type. -/
def EventLog.getEvents (s : EventLog) (startSeq endSeq : Option Nat)
    (eventType : Option EvType) : List DevEvent :=
  let f1 :=
    match startSeq with
    | some a => s.events.filter fun e => a ≤ e.seq
    | none => s.events
  let f2 :=
    match endSeq with
    | some b => f1.filter fun e => e.seq ≤ b
    | none => f1
  match eventType with
  | some t => f2.filter fun e => e.type = t
  | none => f2

/-- `getLatestEvent()`. -/
def EventLog.getLatestEvent (s : EventLog) : Option DevEvent := s.events.getLast?

/-- `clear()`: resets the in-memory event buffer, the sequence counter and
the snapshot buffer (the driver half of `clear` only deletes mirrored
entries, which the in-memory model does not hold). -/
def EventLog.clear (_s : EventLog) : EventLog := ⟨[], 0, []⟩

/-! ### State reconstruction (`packages/devtools/src/reconstruction.ts`) -/

/-- The result of `reconstruct`: `{seq, timestamp, state?, atomKeys}`.  The
state map `Record<string, unknown>` is an insertion-ordered association
list. -/
structure Reconstructed where
  seq : Nat
  timestamp : Nat
  state : Option (List (Str × Value))
  atomKeys : List Str
  deriving Repr

/-- `applyEventToState(event, state)`: `atom-update` overwrites the target
key with `newValue`; `patch` events are recorded but not applied ("Full patch
application would be implemented here" in the source); `dispatch` and the
remaining types do not modify state; events without a target are ignored. -/
def applyEventToState (e : DevEvent) (state : List (Str × Value)) : List (Str × Value) :=
  match e.target with
  | none => state
  | some t =>
    match e.type with
    | .atomUpdate => setField state t e.newValue
    | _ => state

/-- The shared event-folding loop of `reconstruct` /
`reconstructFromEvents`: skip events whose target fails the `atomKeys`
filter (events without a target always pass), record each passing target key,
and, when `includeState`, fold the event into the state map. -/
def foldEvents (events : List DevEvent) (atomKeys : Option (List Str))
    (includeState : Bool) : Option (List (Str × Value)) × List Str :=
  events.foldl
    (fun (acc : Option (List (Str × Value)) × List Str) e =>
      let skip : Bool :=
        match atomKeys, e.target with
        | some ks, some t => ! ks.contains t
        | _, _ => false
      if skip then acc
      else
        let keys :=
          match e.target with
          | some t => if acc.2.contains t then acc.2 else acc.2 ++ [t]
          | none => acc.2
        let st :=
          match acc.1 with
          | some st => some (applyEventToState e st)
          | none => none
        (st, keys))
    (if includeState then (some [], []) else (none, []))

/-- One iteration of the `findClosestSnapshot` loop: keep the candidate with
the greater `seq` among those with `seq ≤` the target (first among equals,
via the strict `>` comparison of the source). -/
def closestStep (seq : Nat) (closest : Option StateSnapshot) (snap : StateSnapshot) :
    Option StateSnapshot :=
  if snap.seq ≤ seq then
    match closest with
    | none => some snap
    | some c => if c.seq < snap.seq then some snap else closest
  else closest

/-- `findClosestSnapshot(seq)`: the snapshot with the greatest `seq` at most
the target. -/
def findClosestSnapshot (s : EventLog) (seq : Nat) : Option StateSnapshot :=
  s.snapshots.foldl (closestStep seq) none

/-- The snapshot chosen by `reconstruct`:
`targetSeq ? findClosestSnapshot(targetSeq) : snapshots[len - 1]`.  JS number
truthiness makes `targetSeq = 0` take the `latest snapshot` branch. -/
def reconstructSelectedSnapshot (s : EventLog) (targetSeq : Option Nat) :
    Option StateSnapshot :=
  match targetSeq with
  | some t => if t = 0 then s.snapshots.getLast? else findClosestSnapshot s t
  | none => s.snapshots.getLast?

/-- `reconstructFromEvents(startSeq, endSeq, atomKeys, includeState)`. -/
def reconstructFromEvents (s : EventLog) (now : Nat) (startSeq : Nat)
    (endSeq : Option Nat) (atomKeys : Option (List Str)) (includeState : Bool) :
    Reconstructed :=
  let events := s.getEvents (some startSeq) endSeq none
  let folded := foldEvents events atomKeys includeState
  { seq := endSeq.getD ((s.getLatestEvent.map DevEvent.seq).getD 0)
    timestamp := now
    state := folded.1
    atomKeys := folded.2 }

/-- `StateReconstructor.reconstruct({targetSeq, atomKeys, includeState})` at
`Date.now() = now`: select a snapshot (see `reconstructSelectedSnapshot`);
without one, replay from the beginning; with one, fold the retained events
with `snapshot.seq + 1 ≤ seq ≤ targetSeq`.  `seq` of the result is
`targetSeq ?? snapshot.seq` (nullish coalescing, so `targetSeq = 0` is
kept). -/
def reconstruct (s : EventLog) (now : Nat) (targetSeq : Option Nat)
    (atomKeys : Option (List Str)) (includeState : Bool) : Reconstructed :=
  match reconstructSelectedSnapshot s targetSeq with
  | none => reconstructFromEvents s now 0 targetSeq atomKeys includeState
  | some snapshot =>
    let events := s.getEvents (some (snapshot.seq + 1)) targetSeq none
    let folded := foldEvents events atomKeys includeState
    { seq := targetSeq.getD snapshot.seq
      timestamp := snapshot.timestamp
      state := folded.1
      atomKeys := folded.2 }

/-- A log with a single snapshot (seq 100, timestamp 7), used to exhibit the
`targetSeq = 0` behaviour. -/
def zeroTargetLog : EventLog := ⟨[], 100, [⟨7, 100, []⟩]⟩

/-- The spec's scenario log: snapshots at seqs 100/200/300 (timestamps
10/20/30) and retained events at seqs 201, 250 and 251 updating atom `"k"`. -/
def scenarioLog : EventLog :=
  ⟨[⟨201, 0, .atomUpdate, some ['k'], Value.vNum 1⟩,
    ⟨250, 0, .atomUpdate, some ['k'], Value.vNum 2⟩,
    ⟨251, 0, .atomUpdate, some ['k'], Value.vNum 3⟩],
   300,
   [⟨10, 100, [['k']]⟩, ⟨20, 200, [['k']]⟩, ⟨30, 300, [['k']]⟩]⟩

/-! ## Supporting lemmas: decimal rendering and parsing -/

theorem digitChar_isDigit {d : Nat} (h : d < 10) : (Nat.digitChar d).isDigit = true := by
  interval_cases d <;> decide

theorem digitChar_toNat {d : Nat} (h : d < 10) : (Nat.digitChar d).toNat - 48 = d := by
  interval_cases d <;> decide

theorem natToStrAux_eq_digits (fuel n : Nat) (h : n ≤ fuel) :
    natToStrAux fuel n = (Nat.digits 10 n).reverse.map Nat.digitChar := by
  induction fuel generalizing n with
  | zero =>
    have : n = 0 := Nat.le_zero.mp h
    subst this
    simp [natToStrAux]
  | succ fuel ih =>
    by_cases hn : n = 0
    · subst hn
      simp [natToStrAux]
    · rw [natToStrAux, if_neg hn]
      rw [ih (n / 10) (by omega)]
      rw [Nat.digits_def' (by norm_num : 1 < 10) (Nat.pos_of_ne_zero hn)]
      simp

theorem natToStr_eq (n : Nat) :
    natToStr n = if n = 0 then ['0'] else (Nat.digits 10 n).reverse.map Nat.digitChar := by
  unfold natToStr
  by_cases hn : n = 0
  · simp [hn]
  · rw [if_neg hn, if_neg hn, natToStrAux_eq_digits n n le_rfl]

theorem natToStr_ne_nil (n : Nat) : natToStr n ≠ [] := by
  rw [natToStr_eq]
  split
  · simp
  · next h =>
    simp [Nat.digits_ne_nil_iff_ne_zero, h]

theorem natToStr_all_digits (n : Nat) : (natToStr n).all Char.isDigit = true := by
  rw [natToStr_eq]
  split
  · decide
  · next h =>
    simp only [List.all_eq_true, List.mem_map, List.mem_reverse]
    rintro c ⟨d, hd, rfl⟩
    exact digitChar_isDigit (Nat.digits_lt_base (by norm_num) hd)

theorem foldl_base10 (L : List Nat) (acc : Nat) :
    L.foldl (fun a d => 10 * a + d) acc = acc * 10 ^ L.length + Nat.ofDigits 10 L.reverse := by
  induction L generalizing acc with
  | nil => simp [Nat.ofDigits]
  | cons d L ih =>
    rw [List.foldl_cons, ih]
    simp only [List.reverse_cons, Nat.ofDigits_append, List.length_reverse,
      Nat.ofDigits_singleton, List.length_cons]
    ring

theorem foldl_map_digitChar (L : List Nat) (acc : Nat) (h : ∀ d ∈ L, d < 10) :
    (L.map Nat.digitChar).foldl (fun a c => 10 * a + (c.toNat - 48)) acc
      = L.foldl (fun a d => 10 * a + d) acc := by
  induction L generalizing acc with
  | nil => rfl
  | cons d L ih =>
    simp only [List.map_cons, List.foldl_cons]
    rw [digitChar_toNat (h d (List.mem_cons_self d L))]
    exact ih _ fun x hx => h x (List.mem_cons_of_mem _ hx)

theorem charsVal_natToStr (n : Nat) : charsVal (natToStr n) = n := by
  rw [natToStr_eq]
  unfold charsVal
  split
  · next h => subst h; decide
  · next h =>
    rw [foldl_map_digitChar _ _ fun d hd =>
      Nat.digits_lt_base (by norm_num) (List.mem_reverse.mp hd)]
    rw [foldl_base10]
    simp [Nat.ofDigits_digits]

theorem isDigit_ne_minus {c : Char} (h : c.isDigit = true) : c ≠ '-' := by
  intro h'
  subst h'
  exact absurd h (by decide)

theorem isDigit_ne_plus {c : Char} (h : c.isDigit = true) : c ≠ '+' := by
  intro h'
  subst h'
  exact absurd h (by decide)

theorem isDigit_not_radix {c : Char} (h : c.isDigit = true) :
    ¬ (c = 'x' ∨ c = 'X') ∧ ¬ (c = 'b' ∨ c = 'B') ∧ ¬ (c = 'o' ∨ c = 'O') := by
  refine ⟨?_, ?_, ?_⟩ <;> rintro (rfl | rfl) <;> exact absurd h (by decide)

theorem takeWhile_eq_self_of_all {p : Char → Bool} (l : Str) (h : ∀ c ∈ l, p c = true) :
    l.takeWhile p = l := by
  induction l with
  | nil => rfl
  | cons c rest ih =>
    rw [List.takeWhile_cons, h c (List.mem_cons_self c rest), if_pos rfl]
    rw [ih fun d hd => h d (List.mem_cons_of_mem c hd)]

theorem dropWhile_eq_nil_of_all {p : Char → Bool} (l : Str) (h : ∀ c ∈ l, p c = true) :
    l.dropWhile p = [] := by
  induction l with
  | nil => rfl
  | cons c rest ih =>
    rw [List.dropWhile_cons, h c (List.mem_cons_self c rest), if_pos rfl]
    exact ih fun d hd => h d (List.mem_cons_of_mem c hd)

theorem dropWhile_cons_of_neg {p : Char → Bool} (c : Char) (rest : Str) (h : p c = false) :
    (c :: rest).dropWhile p = c :: rest := by
  rw [List.dropWhile_cons, h]
  simp

/-- Trimming is the identity on strings without whitespace characters. -/
theorem numTrim_eq_self (l : Str) (h : ∀ c ∈ l, jsWhitespace c = false) :
    ((l.dropWhile jsWhitespace).reverse.dropWhile jsWhitespace).reverse = l := by
  cases l with
  | nil => rfl
  | cons c rest =>
    rw [dropWhile_cons_of_neg c rest (h c (List.mem_cons_self c rest))]
    have hne : (c :: rest).reverse ≠ [] := by simp
    obtain ⟨d, ds, hd⟩ := List.exists_cons_of_ne_nil hne
    have hdmem : d ∈ (c :: rest) := by
      rw [← List.mem_reverse, hd]
      exact List.mem_cons_self d ds
    rw [hd, dropWhile_cons_of_neg d ds (h d hdmem), ← hd]
    simp

theorem jsWhitespace_of_digit {c : Char} (h : c.isDigit = true) : jsWhitespace c = false := by
  cases hw : jsWhitespace c
  · rfl
  · have hm : c ∈ wsCharList := by simpa [jsWhitespace] using hw
    have hall : ∀ x ∈ wsCharList, x.isDigit = false := by decide
    rw [hall c hm] at h
    exact Bool.noConfusion h

theorem parseUnsigned_digits (l : Str) (hne : l ≠ []) (hd : l.all Char.isDigit = true) :
    parseUnsigned l = .intVal ((charsVal l : Nat) : Int) := by
  have hdm : ∀ c ∈ l, c.isDigit = true := fun c hc => by
    simpa using List.all_eq_true.mp hd c hc
  have hInf : l ≠ ['I', 'n', 'f', 'i', 'n', 'i', 't', 'y'] := by
    intro he
    have hI : ('I' : Char).isDigit = true := hdm 'I' (by rw [he]; simp)
    exact absurd hI (by decide)
  have hI : l.takeWhile Char.isDigit = l := takeWhile_eq_self_of_all l hdm
  have hR : l.dropWhile Char.isDigit = [] := dropWhile_eq_nil_of_all l hdm
  have hPD : parseDec l = some (l, 0) := by
    simp only [parseDec, hR, hI, if_neg hne]
  simp only [parseUnsigned, if_neg hInf, hPD]
  by_cases hm : charsVal l = 0
  · rw [hm, if_pos rfl]
    simp
  · rw [if_neg hm, if_pos (le_refl (0 : Int))]
    norm_num

theorem numParse_digits (l : Str) (hne : l ≠ []) (hd : l.all Char.isDigit = true) :
    numParse l = .intVal ((charsVal l : Nat) : Int) := by
  have hdm : ∀ c ∈ l, c.isDigit = true := fun c hc => by
    simpa using List.all_eq_true.mp hd c hc
  have htrim : ((l.dropWhile jsWhitespace).reverse.dropWhile jsWhitespace).reverse = l :=
    numTrim_eq_self l fun c hc => jsWhitespace_of_digit (hdm c hc)
  obtain ⟨c, u, rfl⟩ := List.exists_cons_of_ne_nil hne
  have hcd : c.isDigit = true := hdm c (List.mem_cons_self c u)
  simp only [numParse, htrim]
  rw [if_neg (isDigit_ne_plus hcd), if_neg (isDigit_ne_minus hcd)]
  by_cases hc0 : c = '0'
  · rw [if_pos hc0]
    cases u with
    | nil =>
      subst hc0
      decide
    | cons d ds =>
      have hdd : d.isDigit = true := hdm d (by simp)
      obtain ⟨hx, hb, ho⟩ := isDigit_not_radix hdd
      show (if d = 'x' ∨ d = 'X' then parseRadix 16 ds
        else if d = 'b' ∨ d = 'B' then parseRadix 2 ds
        else if d = 'o' ∨ d = 'O' then parseRadix 8 ds
        else parseUnsigned (c :: d :: ds))
          = NumParse.intVal ((charsVal (c :: d :: ds) : Nat) : Int)
      rw [if_neg hx, if_neg hb, if_neg ho]
      exact parseUnsigned_digits (c :: d :: ds) (by simp) hd
  · rw [if_neg hc0]
    exact parseUnsigned_digits (c :: u) (by simp) hd

theorem numParse_intToStr (n : Int) : numParse (intToStr n) = .intVal n := by
  unfold intToStr
  split
  · next hneg =>
    have hne := natToStr_ne_nil (-n).toNat
    have hall := natToStr_all_digits (-n).toNat
    have hdm : ∀ c ∈ natToStr (-n).toNat, c.isDigit = true := fun c hc => by
      simpa using List.all_eq_true.mp hall c hc
    have htrim := numTrim_eq_self ('-' :: natToStr (-n).toNat) (by
      intro c hc
      rcases List.mem_cons.mp hc with rfl | hc'
      · decide
      · exact jsWhitespace_of_digit (hdm c hc'))
    simp only [numParse, htrim]
    simp only [if_true, reduceIte]
    rw [parseUnsigned_digits _ hne hall, charsVal_natToStr]
    show NumParse.intVal (-(((-n).toNat : Nat) : Int)) = NumParse.intVal n
    congr 1
    omega
  · next hpos =>
    rw [numParse_digits (natToStr n.toNat) (natToStr_ne_nil _) (natToStr_all_digits _)]
    rw [charsVal_natToStr]
    congr 1
    omega

theorem jsNumber?_intToStr (n : Int) : jsNumber? (intToStr n) = some n := by
  simp only [jsNumber?, numParse_intToStr]

theorem jsNumericStr_of_some {s : Str} {k : Int} (h : jsNumber? s = some k) :
    jsNumericStr s = true := by
  cases hnp : numParse s with
  | nan => rw [jsNumber?, hnp] at h; exact Option.noConfusion h
  | intVal n => simp [jsNumericStr, hnp]
  | nonInt => rw [jsNumber?, hnp] at h; exact Option.noConfusion h

theorem isCanonicalNum_false_of_not_numeric (s : Str) (h : jsNumericStr s = false) :
    isCanonicalNum s = false := by
  cases hj : jsNumber? s with
  | none => simp [isCanonicalNum, hj]
  | some k => rw [jsNumericStr_of_some hj] at h; exact Bool.noConfusion h

/-! ## Supporting lemmas: the path string codec -/

theorem escapePath_cons (c : Char) (s : Str) :
    escapePath (c :: s)
      = (if c = '~' then ['~', '0'] else if c = '/' then ['~', '1'] else [c]) ++ escapePath s := by
  simp [escapePath]

theorem escapeTildeOnly_cons (c : Char) (s : Str) :
    escapeTildeOnly (c :: s) = (if c = '~' then ['~', '0'] else [c]) ++ escapeTildeOnly s := by
  simp [escapeTildeOnly]

theorem replacePair_cons_ne {a b r c : Char} (l : Str) (h : c ≠ a) :
    replacePair a b r (c :: l) = c :: replacePair a b r l := by
  cases l with
  | nil => rfl
  | cons y rest =>
    simp only [replacePair]
    rw [if_neg fun hc => h hc.1]

theorem replace1_tilde0 (l : Str) :
    replacePair '~' '1' '/' ('~' :: '0' :: l) = '~' :: '0' :: replacePair '~' '1' '/' l := by
  have h1 : replacePair '~' '1' '/' ('~' :: '0' :: l)
      = '~' :: replacePair '~' '1' '/' ('0' :: l) := rfl
  rw [h1, replacePair_cons_ne _ (by decide)]

theorem replace1_tilde1 (l : Str) :
    replacePair '~' '1' '/' ('~' :: '1' :: l) = '/' :: replacePair '~' '1' '/' l := rfl

theorem replace0_tilde0 (l : Str) :
    replacePair '~' '0' '~' ('~' :: '0' :: l) = '~' :: replacePair '~' '0' '~' l := rfl

theorem replace1_escape (s : Str) :
    replacePair '~' '1' '/' (escapePath s) = escapeTildeOnly s := by
  induction s with
  | nil => rfl
  | cons c rest ih =>
    by_cases hc : c = '~'
    · subst hc
      show replacePair '~' '1' '/' ('~' :: '0' :: escapePath rest)
        = '~' :: '0' :: escapeTildeOnly rest
      rw [replace1_tilde0, ih]
    · by_cases hs : c = '/'
      · subst hs
        show replacePair '~' '1' '/' ('~' :: '1' :: escapePath rest)
          = '/' :: escapeTildeOnly rest
        rw [replace1_tilde1, ih]
      · rw [escapePath_cons, escapeTildeOnly_cons]
        simp only [if_neg hc, if_neg hs, List.cons_append, List.nil_append]
        rw [replacePair_cons_ne _ hc, ih]

theorem replace0_escapeTildeOnly (s : Str) :
    replacePair '~' '0' '~' (escapeTildeOnly s) = s := by
  induction s with
  | nil => rfl
  | cons c rest ih =>
    by_cases hc : c = '~'
    · subst hc
      show replacePair '~' '0' '~' ('~' :: '0' :: escapeTildeOnly rest) = '~' :: rest
      rw [replace0_tilde0, ih]
    · rw [escapeTildeOnly_cons]
      simp only [if_neg hc, List.cons_append, List.nil_append]
      rw [replacePair_cons_ne _ hc, ih]

/-- `decode(encode(s)) = s` at the level of a single segment's characters. -/
theorem unescape_escape (s : Str) : unescapePath (escapePath s) = s := by
  rw [unescapePath, replace1_escape, replace0_escapeTildeOnly]

theorem sep_not_mem_escape (s : Str) : '/' ∉ escapePath s := by
  induction s with
  | nil => simp [escapePath]
  | cons c rest ih =>
    rw [escapePath_cons]
    simp only [List.mem_append]
    rintro (h | h)
    · by_cases hc : c = '~'
      · simp [hc] at h
      · by_cases hs : c = '/'
        · simp [hc, hs] at h
        · have : '/' = c := by simpa [hc, hs] using h
          exact hs this.symm
    · exact ih h

theorem splitSep_no_sep (s : Str) (h : '/' ∉ s) : splitSep s = [s] := by
  induction s with
  | nil => rfl
  | cons c rest ih =>
    have hc : ¬ c = '/' := fun hc => h (by simp [hc])
    have hr : '/' ∉ rest := fun hr => h (List.mem_cons_of_mem _ hr)
    simp only [splitSep]
    rw [if_neg hc, ih hr]

theorem splitSep_append (s : Str) (l : Str) (h : '/' ∉ s) :
    splitSep (s ++ '/' :: l) = s :: splitSep l := by
  induction s with
  | nil => simp [splitSep]
  | cons c rest ih =>
    have hc : ¬ c = '/' := fun hc => h (by simp [hc])
    have hr : '/' ∉ rest := fun hr => h (List.mem_cons_of_mem _ hr)
    simp only [List.cons_append, splitSep, List.append_eq]
    rw [if_neg hc, ih hr]

theorem splitSep_joinSep (segs : List Str) (hne : segs ≠ [])
    (h : ∀ s ∈ segs, '/' ∉ s) : splitSep (joinSep segs) = segs := by
  induction segs with
  | nil => exact absurd rfl hne
  | cons s rest ih =>
    cases rest with
    | nil => exact splitSep_no_sep s (h s (List.mem_cons_self _ _))
    | cons s2 rest2 =>
      show splitSep (s ++ '/' :: joinSep (s2 :: rest2)) = _
      rw [splitSep_append _ _ (h s (List.mem_cons_self _ _))]
      rw [ih (by simp) fun x hx => h x (List.mem_cons_of_mem _ hx)]

theorem intToStr_ne_nil (n : Int) : intToStr n ≠ [] := by
  unfold intToStr
  split
  · simp
  · exact natToStr_ne_nil _

theorem escapePath_eq_nil_iff (s : Str) : escapePath s = [] ↔ s = [] := by
  cases s with
  | nil => simp [escapePath]
  | cons c rest =>
    simp only [escapePath_cons, List.append_eq_nil, iff_false, List.cons_ne_nil]
    rintro ⟨h, -⟩
    split_ifs at h

theorem decodeSeg_encode (seg : Seg) (h : ∀ s, seg = .str s → isCanonicalNum s = false)
    (hk : ∀ n, seg = .num n → n.natAbs ≤ 2 ^ 53) :
    decodeSeg (escapePath (segToString seg)) = seg := by
  unfold decodeSeg
  rw [unescape_escape]
  cases seg with
  | num n =>
    have hcap := hk n rfl
    simp only [segToString, jsNumber?_intToStr]
    rw [if_pos ⟨hcap, trivial⟩]
  | str s =>
    have hc := h s rfl
    show (match jsNumber? (segToString (Seg.str s)) with
      | some k => if k.natAbs ≤ 2 ^ 53 ∧ intToStr k = segToString (Seg.str s) then Seg.num k
                  else Seg.str (segToString (Seg.str s))
      | none => Seg.str (segToString (Seg.str s))) = Seg.str s
    show (match jsNumber? s with
      | some k => if k.natAbs ≤ 2 ^ 53 ∧ intToStr k = s then Seg.num k else Seg.str s
      | none => Seg.str s) = Seg.str s
    cases hj : jsNumber? s with
    | none => rfl
    | some k =>
      have hne : ¬ (k.natAbs ≤ 2 ^ 53 ∧ intToStr k = s) := by
        rintro ⟨hcap, heq⟩
        simp only [isCanonicalNum, hj] at hc
        simp [hcap, heq] at hc
        have h53 : (2 : ℕ) ^ 53 = 9007199254740992 := by norm_num
        omega
      show (if k.natAbs ≤ 2 ^ 53 ∧ intToStr k = s then Seg.num k else Seg.str s) = Seg.str s
      rw [if_neg hne]

/-- **C2, amended.**  `stringToPath(pathToString(p)) = p` for every path `p`
such that: `p` is not the one-element path whose segment is the empty string
(it encodes to `"/"`, which decodes to the empty path); every string segment
is either empty or not parsed by JS `Number` (segments that are the
canonical rendering of the number they parse to — `"1"`, `"1.5"`, `"1e+30"`,
`"Infinity"` — decode to number segments, so `Number`-parseable string
segments are excluded wholesale); and every number segment lies within
`±2^53` (the range on which the double format renders and re-parses
exactly).  Paths whose string segments contain the separator or escape
characters are covered. -/
theorem stringToPath_pathToString (p : List Seg) (h1 : p ≠ [Seg.str []])
    (h2 : ∀ s, Seg.str s ∈ p → s = [] ∨ jsNumericStr s = false)
    (h3 : ∀ n, Seg.num n ∈ p → n.natAbs ≤ 2 ^ 53) :
    stringToPath (pathToString p) = p := by
  cases p with
  | nil => rfl
  | cons seg rest =>
    have henc_ne : (seg :: rest).map (fun sg => escapePath (segToString sg)) ≠ [] := by simp
    have hsep : ∀ e ∈ (seg :: rest).map (fun sg => escapePath (segToString sg)), '/' ∉ e := by
      intro e he
      simp only [List.mem_map] at he
      obtain ⟨sg, -, rfl⟩ := he
      exact sep_not_mem_escape _
    have hjoin_ne : joinSep ((seg :: rest).map fun sg => escapePath (segToString sg)) ≠ [] := by
      cases rest with
      | nil =>
        show joinSep [escapePath (segToString seg)] ≠ []
        show escapePath (segToString seg) ≠ []
        rw [Ne, escapePath_eq_nil_iff]
        cases seg with
        | num n => exact intToStr_ne_nil n
        | str s =>
          intro hs
          exact h1 (by simp [segToString] at hs; simp [hs])
      | cons s2 rest2 =>
        show escapePath (segToString seg) ++ '/' :: _ ≠ []
        simp
    have hpts : pathToString (seg :: rest)
        = '/' :: joinSep ((seg :: rest).map fun sg => escapePath (segToString sg)) := by
      unfold pathToString
      rw [if_neg (by simp)]
    rw [hpts]
    unfold stringToPath
    rw [if_neg (by
      push_neg
      refine ⟨by simp, ?_⟩
      intro hq
      exact hjoin_ne (by simpa using hq))]
    have hsplit : splitSep ('/' :: joinSep ((seg :: rest).map fun sg => escapePath (segToString sg)))
        = [] :: splitSep (joinSep ((seg :: rest).map fun sg => escapePath (segToString sg))) := by
      simp [splitSep]
    rw [hsplit, List.drop_one, List.tail_cons, splitSep_joinSep _ henc_ne hsep, List.map_map]
    have hcon : ∀ sg ∈ (seg :: rest),
        (decodeSeg ∘ fun sg => escapePath (segToString sg)) sg = id sg := by
      intro sg hsg
      refine decodeSeg_encode sg (fun s hs => ?_) (fun n hn => h3 n (hn ▸ hsg))
      rcases h2 s (hs ▸ hsg) with hnil | hnn
      · subst hnil
        decide
      · exact isCanonicalNum_false_of_not_numeric _ hnn
    rw [List.map_congr_left hcon, List.map_id]

/-- **C2, counterexample to the claim as stated.**  The path consisting of the
single string segment `"1"` (numeric-looking) encodes to `"/1"`, which
decodes to the *number* segment `1`, not back to the string segment. -/
theorem stringToPath_pathToString_cex :
    stringToPath (pathToString [Seg.str ['1']]) = [Seg.num 1]
      ∧ stringToPath (pathToString [Seg.str ['1']]) ≠ [Seg.str ['1']] := by
  constructor
  · rfl
  · decide

/-- Witness for `stringToPath_pathToString` at a concrete path containing the
escape character, the separator, an empty string segment and a number. -/
theorem stringToPath_pathToString_witness :
    stringToPath (pathToString [Seg.str ['a', '~', '/', 'b'], Seg.num (-7), Seg.str []])
      = [Seg.str ['a', '~', '/', 'b'], Seg.num (-7), Seg.str []] :=
  stringToPath_pathToString _ (by decide)
    (by
      intro s hs
      simp only [List.mem_cons, List.not_mem_nil, or_false, Seg.str.injEq] at hs
      rcases hs with h | h | h
      · subst h; right; decide
      · exact absurd h (by simp)
      · subst h; left; rfl)
    (by
      intro n hn
      simp only [List.mem_cons, List.not_mem_nil, or_false, Seg.num.injEq] at hn
      rcases hn with h | h | h
      · exact absurd h (by simp)
      · subst h; decide
      · exact absurd h (by simp))

/-! ## Supporting lemmas: chunking -/

theorem chunkData_length (buf : List Nat) (S : Nat) :
    (chunkData buf S).length = (buf.length + S - 1) / S := by
  simp [chunkData]

theorem chunkData_indices (buf : List Nat) (S : Nat) :
    (chunkData buf S).map Chunk.index = List.range ((buf.length + S - 1) / S) := by
  simp [chunkData, List.map_map]
  exact List.map_id _

theorem le_ceil_mul (L S : Nat) (hS : 0 < S) : L ≤ S * ((L + S - 1) / S) := by
  have h1 := Nat.div_add_mod (L + S - 1) S
  have h2 := Nat.mod_lt (L + S - 1) hS
  omega

theorem flatten_take_drop (S : Nat) :
    ∀ (n : Nat) (data : List Nat), data.length ≤ n * S →
      ((List.range n).map fun j => (data.drop (j * S)).take S).flatten = data := by
  intro n
  induction n with
  | zero =>
    intro data h
    have : data = [] := List.eq_nil_of_length_eq_zero (by omega)
    simp [this]
  | succ n ih =>
    intro data h
    rw [List.range_succ_eq_map]
    simp only [List.map_cons, List.map_map, List.flatten_cons, Nat.zero_mul, List.drop_zero]
    have hstep : ∀ j : Nat,
        ((data.drop ((j + 1) * S)).take S) = ((data.drop S).drop (j * S)).take S := by
      intro j
      rw [List.drop_drop]
      have hm : (j + 1) * S = S + j * S := by
        rw [Nat.succ_mul, Nat.add_comm]
      rw [hm]
    have hmap : (List.range n).map (fun j => (data.drop ((j + 1) * S)).take S)
        = (List.range n).map fun j => ((data.drop S).drop (j * S)).take S :=
      List.map_congr_left fun j _ => hstep j
    have hcomp : ((List.range n).map fun x => (data.drop ((x + 1) * S)).take S).flatten
        = data.drop S := by
      rw [hmap, ih (data.drop S) (by
        simp only [List.length_drop]
        have hm : (n + 1) * S = n * S + S := by ring
        omega)]
    calc data.take S ++ (List.map (fun x => List.take S (List.drop ((x + 1) * S) data)) (List.range n)).flatten
        = data.take S ++ data.drop S := by rw [hcomp]
      _ = data := List.take_append_drop S data

theorem chunkData_flatten (buf : List Nat) (S : Nat) (hS : 0 < S) :
    ((chunkData buf S).map Chunk.data).flatten = buf := by
  unfold chunkData
  rw [List.map_map]
  exact flatten_take_drop S _ buf (le_ceil_mul buf.length S hS |>.trans_eq (Nat.mul_comm _ _))

theorem chunkData_pairwise (buf : List Nat) (S : Nat) :
    List.Pairwise (fun a b => a.index < b.index) (chunkData buf S) := by
  unfold chunkData
  rw [List.pairwise_map]
  simpa using List.pairwise_lt_range _

/-- A permutation of a list whose indices are strictly increasing, once
sorted by `chunkLE`, is that list: sorting by index has a unique result when
the indices are distinct (so the stability of the JS sort does not matter). -/
theorem sorted_perm_eq (l : List Chunk) : ∀ s : List Chunk, s.Perm l →
    List.Sorted chunkLE s → List.Pairwise (fun a b => a.index < b.index) l → s = l := by
  induction l with
  | nil => intro s hp _ _; exact hp.eq_nil
  | cons x t ih =>
    intro s hp hs hl
    have hsne : s ≠ [] := by
      intro h
      subst h
      simpa using hp.length_eq
    obtain ⟨y, s', rfl⟩ := List.exists_cons_of_ne_nil hsne
    by_cases hxy : y = x
    · subst hxy
      have hp' : s'.Perm t := hp.cons_inv
      rw [ih s' hp' hs.of_cons hl.of_cons]
    · exfalso
      have hy : y ∈ x :: t := hp.subset (List.mem_cons_self _ _)
      have hyt : y ∈ t := (List.mem_cons.mp hy).resolve_left hxy
      have h1 : x.index < y.index := (List.pairwise_cons.mp hl).1 y hyt
      have hx : x ∈ y :: s' := hp.symm.subset (List.mem_cons_self _ _)
      have hxs : x ∈ s' := (List.mem_cons.mp hx).resolve_left fun h => hxy h.symm
      have h2 : chunkLE y x := (List.sorted_cons.mp hs).1 x hxs
      unfold chunkLE at h2
      omega

/-- **C3.**  For every byte buffer and chunk size `S > 0`, `chunkData`
produces exactly `⌈L/S⌉` chunks carrying the indices `0 .. ⌈L/S⌉ - 1`, and
`reconstructData`, applied to the chunks in any order, returns a buffer
byte-identical to the original. -/
theorem chunk_reconstruct_roundtrip (buf : List Nat) (S : Nat) (hS : 0 < S)
    (chunks : List Chunk) (hperm : chunks.Perm (chunkData buf S)) :
    (chunkData buf S).length = (buf.length + S - 1) / S
      ∧ (chunkData buf S).map Chunk.index = List.range ((buf.length + S - 1) / S)
      ∧ reconstructData chunks = buf := by
  refine ⟨chunkData_length buf S, chunkData_indices buf S, ?_⟩
  unfold reconstructData
  have hp2 : (List.insertionSort chunkLE chunks).Perm (chunkData buf S) :=
    (List.perm_insertionSort chunkLE chunks).trans hperm
  rw [sorted_perm_eq _ _ hp2 (List.sorted_insertionSort chunkLE chunks)
    (chunkData_pairwise buf S)]
  exact chunkData_flatten buf S hS

/-- Witness for `chunk_reconstruct_roundtrip`: a 5-byte buffer, chunk size 2,
with the chunks supplied in a shuffled order. -/
theorem chunk_reconstruct_roundtrip_witness :
    reconstructData [⟨2, [5]⟩, ⟨0, [1, 2]⟩, ⟨1, [3, 4]⟩] = [1, 2, 3, 4, 5] :=
  (chunk_reconstruct_roundtrip [1, 2, 3, 4, 5] 2 (by decide)
    [⟨2, [5]⟩, ⟨0, [1, 2]⟩, ⟨1, [3, 4]⟩] (by decide)).2.2

/-! ## Event-log sequencing -/

theorem logStep_sequenceNumber (cfg : EventLogConfig) (s : EventLog) (inp : EventInput)
    (now : Nat) : (EventLog.logStep cfg s inp now).sequenceNumber = s.sequenceNumber + 1 := rfl

theorem seqTrace_eq_range' (cfg : EventLogConfig) :
    ∀ (inputs : List (EventInput × Nat)) (s : EventLog),
      EventLog.seqTrace cfg s inputs = List.range' (s.sequenceNumber + 1) inputs.length := by
  intro inputs
  induction inputs with
  | nil => intro s; rfl
  | cons p rest ih =>
    intro s
    show (s.sequenceNumber + 1) :: EventLog.seqTrace cfg (EventLog.logStep cfg s p.1 p.2) rest = _
    rw [ih, logStep_sequenceNumber]
    rfl

/-- **C5.**  Across any number of appends on a single `EventLog` (any
configuration, hence any retention cap), the assigned `seq` values are
exactly `1, 2, …, N` — strictly increasing and gap-free. -/
theorem eventLog_seq_gapfree (cfg : EventLogConfig) (inputs : List (EventInput × Nat)) :
    EventLog.seqTrace cfg EventLog.initial inputs = List.range' 1 inputs.length
      ∧ (EventLog.run cfg EventLog.initial inputs).sequenceNumber = inputs.length := by
  constructor
  · rw [seqTrace_eq_range' cfg inputs EventLog.initial]
    rfl
  · show (EventLog.run cfg EventLog.initial inputs).sequenceNumber = inputs.length
    have h : ∀ (l : List (EventInput × Nat)) (s : EventLog),
        (EventLog.run cfg s l).sequenceNumber = s.sequenceNumber + l.length := by
      intro l
      induction l with
      | nil => intro s; simp [EventLog.run]
      | cons p rest ih =>
        intro s
        show (EventLog.run cfg (EventLog.logStep cfg s p.1 p.2) rest).sequenceNumber = _
        rw [ih, logStep_sequenceNumber]
        simp [List.length_cons]
        omega
    rw [h inputs EventLog.initial]
    simp [EventLog.initial]

/-- **C10.**  `clear()` resets the sequence counter to `0` along with the
in-memory event and snapshot buffers, and the first event logged after
`clear()` is assigned `seq = 1` again (so sequence numbers repeat across a
`clear()` boundary). -/
theorem eventLog_clear_resets (cfg : EventLogConfig) (s : EventLog) (inp : EventInput)
    (now : Nat) :
    (EventLog.clear s).sequenceNumber = 0
      ∧ (EventLog.clear s).events = []
      ∧ (EventLog.clear s).snapshots = []
      ∧ EventLog.seqTrace cfg (EventLog.clear s) [(inp, now)] = [1] :=
  ⟨rfl, rfl, rfl, rfl⟩

/-! ## Supporting lemmas: snapshot selection -/

theorem closestStep_cases (t : Nat) (acc : Option StateSnapshot) (x : StateSnapshot) :
    (x.seq ≤ t ∧ acc = none ∧ closestStep t acc x = some x)
      ∨ (∃ a, x.seq ≤ t ∧ acc = some a ∧ a.seq < x.seq ∧ closestStep t acc x = some x)
      ∨ (∃ a, x.seq ≤ t ∧ acc = some a ∧ ¬ a.seq < x.seq ∧ closestStep t acc x = some a)
      ∨ (¬ x.seq ≤ t ∧ closestStep t acc x = acc) := by
  by_cases hx : x.seq ≤ t
  · cases acc with
    | none => exact Or.inl ⟨hx, rfl, by unfold closestStep; rw [if_pos hx]⟩
    | some a =>
      by_cases ha : a.seq < x.seq
      · refine Or.inr (Or.inl ⟨a, hx, rfl, ha, ?_⟩)
        unfold closestStep
        rw [if_pos hx]
        simp [ha]
      · refine Or.inr (Or.inr (Or.inl ⟨a, hx, rfl, ha, ?_⟩))
        unfold closestStep
        rw [if_pos hx]
        simp [ha]
  · exact Or.inr (Or.inr (Or.inr ⟨hx, by unfold closestStep; rw [if_neg hx]⟩))

theorem closest_foldl_some (t : Nat) :
    ∀ (l : List StateSnapshot) (acc : Option StateSnapshot) (r : StateSnapshot),
      l.foldl (closestStep t) acc = some r →
      (∀ c, acc = some c → c.seq ≤ t) →
      (r ∈ l ∨ acc = some r) ∧ r.seq ≤ t
        ∧ (∀ x ∈ l, x.seq ≤ t → x.seq ≤ r.seq)
        ∧ (∀ c, acc = some c → c.seq ≤ r.seq) := by
  intro l
  induction l with
  | nil =>
    intro acc r h hacc
    simp only [List.foldl_nil] at h
    refine ⟨Or.inr h, hacc r h, by simp, ?_⟩
    intro c hc
    rw [hc] at h
    cases h
    exact le_rfl
  | cons x l ih =>
    intro acc r h hacc
    rw [List.foldl_cons] at h
    rcases closestStep_cases t acc x with
      ⟨hxt, haccn, hcs⟩ | ⟨a, hxt, hacca, hax, hcs⟩ | ⟨a, hxt, hacca, hax, hcs⟩ | ⟨hxt, hcs⟩
    · rw [hcs] at h
      obtain ⟨hmem, hle, hmax, haccle⟩ := ih _ r h (by intro c hc; cases hc; exact hxt)
      refine ⟨?_, hle, ?_, ?_⟩
      · rcases hmem with hm | hm
        · exact Or.inl (List.mem_cons_of_mem _ hm)
        · cases hm
          exact Or.inl (List.mem_cons_self _ _)
      · intro y hy hyt
        rcases List.mem_cons.mp hy with hm | hm
        · subst hm
          exact haccle y rfl
        · exact hmax y hm hyt
      · intro c hc
        rw [haccn] at hc
        cases hc
    · rw [hcs] at h
      obtain ⟨hmem, hle, hmax, haccle⟩ := ih _ r h (by intro c hc; cases hc; exact hxt)
      refine ⟨?_, hle, ?_, ?_⟩
      · rcases hmem with hm | hm
        · exact Or.inl (List.mem_cons_of_mem _ hm)
        · cases hm
          exact Or.inl (List.mem_cons_self _ _)
      · intro y hy hyt
        rcases List.mem_cons.mp hy with hm | hm
        · subst hm
          exact haccle y rfl
        · exact hmax y hm hyt
      · intro c hc
        rw [hacca] at hc
        cases hc
        exact (le_of_lt hax).trans (haccle x rfl)
    · rw [hcs] at h
      obtain ⟨hmem, hle, hmax, haccle⟩ := ih _ r h (by
        intro c hc
        cases hc
        exact hacc a hacca)
      refine ⟨?_, hle, ?_, ?_⟩
      · rcases hmem with hm | hm
        · exact Or.inl (List.mem_cons_of_mem _ hm)
        · rw [hacca]
          exact Or.inr hm
      · intro y hy hyt
        rcases List.mem_cons.mp hy with hm | hm
        · subst hm
          exact le_trans (by omega) (haccle a rfl)
        · exact hmax y hm hyt
      · intro c hc
        rw [hacca] at hc
        cases hc
        exact haccle a rfl
    · rw [hcs] at h
      obtain ⟨hmem, hle, hmax, haccle⟩ := ih _ r h hacc
      refine ⟨?_, hle, ?_, ?_⟩
      · rcases hmem with hm | hm
        · exact Or.inl (List.mem_cons_of_mem _ hm)
        · exact Or.inr hm
      · intro y hy hyt
        rcases List.mem_cons.mp hy with hm | hm
        · subst hm
          exact absurd hyt hxt
        · exact hmax y hm hyt
      · exact haccle

theorem closest_foldl_none (t : Nat) :
    ∀ (l : List StateSnapshot) (acc : Option StateSnapshot),
      l.foldl (closestStep t) acc = none →
      acc = none ∧ ∀ x ∈ l, ¬ x.seq ≤ t := by
  intro l
  induction l with
  | nil =>
    intro acc h
    simp only [List.foldl_nil] at h
    exact ⟨h, by simp⟩
  | cons x l ih =>
    intro acc h
    rw [List.foldl_cons] at h
    rcases closestStep_cases t acc x with
      ⟨hxt, haccn, hcs⟩ | ⟨a, hxt, hacca, hax, hcs⟩ | ⟨a, hxt, hacca, hax, hcs⟩ | ⟨hxt, hcs⟩
    · rw [hcs] at h
      obtain ⟨hnone, -⟩ := ih _ h
      cases hnone
    · rw [hcs] at h
      obtain ⟨hnone, -⟩ := ih _ h
      cases hnone
    · rw [hcs] at h
      obtain ⟨hnone, -⟩ := ih _ h
      cases hnone
    · rw [hcs] at h
      obtain ⟨hnone, hl⟩ := ih _ h
      refine ⟨hnone, ?_⟩
      intro y hy
      rcases List.mem_cons.mp hy with hm | hm
      · subst hm
        exact hxt
      · exact hl y hm

/-- The snapshot-selection specification: `findClosestSnapshot` returns the
snapshot with the greatest `seq ≤ t` when one exists, and `none` exactly when
no snapshot has `seq ≤ t`. -/
theorem findClosestSnapshot_spec (s : EventLog) (t : Nat) :
    (∀ sn, findClosestSnapshot s t = some sn →
        sn ∈ s.snapshots ∧ sn.seq ≤ t ∧ ∀ x ∈ s.snapshots, x.seq ≤ t → x.seq ≤ sn.seq)
      ∧ (findClosestSnapshot s t = none → ∀ x ∈ s.snapshots, ¬ x.seq ≤ t) := by
  constructor
  · intro sn h
    obtain ⟨hmem, hle, hmax, -⟩ :=
      closest_foldl_some t s.snapshots none sn h (by intro c hc; cases hc)
    refine ⟨?_, hle, hmax⟩
    rcases hmem with hm | hm
    · exact hm
    · cases hm
  · intro h
    exact (closest_foldl_none t s.snapshots none h).2

theorem reconstructSelected_pos (s : EventLog) (t : Nat) (ht : ¬ t = 0) :
    reconstructSelectedSnapshot s (some t) = findClosestSnapshot s t := by
  simp only [reconstructSelectedSnapshot]
  rw [if_neg ht]

theorem getEvents_range_some (s : EventLog) (a t : Nat) :
    s.getEvents (some a) (some t) none
      = s.events.filter fun e => decide (a ≤ e.seq) && decide (e.seq ≤ t) := by
  show ((s.events.filter fun e => a ≤ e.seq).filter fun e => e.seq ≤ t) = _
  rw [List.filter_filter]
  exact List.filter_congr fun e _ => Bool.and_comm _ _

theorem getEvents_range_none (s : EventLog) (a : Nat) :
    s.getEvents (some a) none none = s.events.filter fun e => decide (a ≤ e.seq) := rfl

/-- **C4, amended.**  For every `targetSeq ≥ 1` — and when `targetSeq` is
omitted — `reconstruct` behaves as the claim states: it selects the snapshot
with the greatest `seq ≤ targetSeq` (the latest snapshot when `targetSeq` is
omitted), replays from the beginning when none exists, and folds exactly the
retained events with `seq` in `(snapshot.seq, targetSeq]` into the result.
The amendment excludes `targetSeq = 0`: `0` is falsy in JS, so the code then
selects the *latest* snapshot instead of following the `greatest seq ≤ 0 /
replay from the beginning` rule (see `reconstruct_target_zero_cex`). -/
theorem reconstruct_amended (s : EventLog) (now : Nat) (ak : Option (List Str)) (inc : Bool) :
    (∀ t, 1 ≤ t →
      reconstruct s now (some t) ak inc =
        match findClosestSnapshot s t with
        | some sn =>
          { seq := t
            timestamp := sn.timestamp
            state := (foldEvents
              (s.events.filter fun e => decide (sn.seq < e.seq) && decide (e.seq ≤ t)) ak inc).1
            atomKeys := (foldEvents
              (s.events.filter fun e => decide (sn.seq < e.seq) && decide (e.seq ≤ t)) ak inc).2 }
        | none =>
          { seq := t
            timestamp := now
            state := (foldEvents (s.events.filter fun e => decide (e.seq ≤ t)) ak inc).1
            atomKeys := (foldEvents (s.events.filter fun e => decide (e.seq ≤ t)) ak inc).2 })
      ∧ (reconstruct s now none ak inc =
          match s.snapshots.getLast? with
          | some sn =>
            { seq := sn.seq
              timestamp := sn.timestamp
              state := (foldEvents (s.events.filter fun e => decide (sn.seq < e.seq)) ak inc).1
              atomKeys := (foldEvents (s.events.filter fun e => decide (sn.seq < e.seq)) ak inc).2 }
          | none =>
            { seq := (s.getLatestEvent.map DevEvent.seq).getD 0
              timestamp := now
              state := (foldEvents s.events ak inc).1
              atomKeys := (foldEvents s.events ak inc).2 })
      ∧ (∀ t sn, findClosestSnapshot s t = some sn →
          sn ∈ s.snapshots ∧ sn.seq ≤ t ∧ ∀ x ∈ s.snapshots, x.seq ≤ t → x.seq ≤ sn.seq)
      ∧ (∀ t, findClosestSnapshot s t = none → ∀ x ∈ s.snapshots, ¬ x.seq ≤ t) := by
  refine ⟨?_, ?_, fun t => (findClosestSnapshot_spec s t).1,
    fun t => (findClosestSnapshot_spec s t).2⟩
  · intro t ht
    have ht0 : ¬ t = 0 := by omega
    cases hfc : findClosestSnapshot s t with
    | some sn =>
      have hev : s.getEvents (some (sn.seq + 1)) (some t) none
          = s.events.filter fun e => decide (sn.seq < e.seq) && decide (e.seq ≤ t) := by
        rw [getEvents_range_some]
        exact List.filter_congr fun e _ => rfl
      simp only [reconstruct, reconstructSelected_pos s t ht0, hfc, hev, Option.getD_some]
    | none =>
      have hev0 : s.getEvents (some 0) (some t) none
          = s.events.filter fun e => decide (e.seq ≤ t) := by
        rw [getEvents_range_some]
        exact List.filter_congr fun e _ => by simp
      simp only [reconstruct, reconstructSelected_pos s t ht0, hfc,
        reconstructFromEvents, hev0, Option.getD_some]
  · cases hlast : s.snapshots.getLast? with
    | some sn =>
      have hev : s.getEvents (some (sn.seq + 1)) none none
          = s.events.filter fun e => decide (sn.seq < e.seq) := by
        rw [getEvents_range_none]
        exact List.filter_congr fun e _ => rfl
      have hsel : reconstructSelectedSnapshot s none = some sn := hlast
      simp only [reconstruct, hsel, hev, Option.getD_none]
    | none =>
      have hev0 : s.getEvents (some 0) none none = s.events := by
        rw [getEvents_range_none]
        rw [List.filter_eq_self.mpr]
        intro e _
        simp
      have hsel : reconstructSelectedSnapshot s none = none := hlast
      simp only [reconstruct, hsel, reconstructFromEvents, hev0, Option.getD_none]

/-- **C4, counterexample to the claim as stated.**  The claim prescribes, for
*every* `targetSeq`, the snapshot with the greatest `seq ≤ targetSeq` (and a
replay from the beginning when none exists).  At `targetSeq = 0` — a falsy
number in JS — the code instead takes the `latest snapshot` branch: with a
single snapshot of seq `100` it selects that snapshot even though
`100 ≤ 0` fails, observably reporting the snapshot's timestamp `7` where the
claim's replay-from-beginning path would report `Date.now() = 99`. -/
theorem reconstruct_target_zero_cex :
    reconstructSelectedSnapshot zeroTargetLog (some 0) = some ⟨7, 100, []⟩
      ∧ ¬ ((100 : Nat) ≤ 0)
      ∧ (reconstruct zeroTargetLog 99 (some 0) none true).timestamp = 7
      ∧ (reconstructFromEvents zeroTargetLog 99 0 (some 0) none true).timestamp = 99 :=
  ⟨rfl, by decide, rfl, rfl⟩

/-- Witness for `reconstruct_amended`, instantiating the spec's scenario:
`reconstruct(targetSeq = 250)` with snapshots at 100/200/300 uses the seq-200
snapshot (timestamp 20) as base and replays exactly the events 201..250 —
the event at seq 251 is not folded. -/
theorem reconstruct_amended_witness :
    reconstruct scenarioLog 99 (some 250) none true
      = { seq := 250, timestamp := 20,
          state := some [(['k'], Value.vNum 2)], atomKeys := [['k']] } := by
  have h := (reconstruct_amended scenarioLog 99 none true).1 250 (by decide)
  rw [h]
  rfl

/-! ## Supporting lemmas: driver state and chunk keys -/

theorem driverKeys_delete_mem (st : DriverState) (a x : Str) :
    x ∈ driverKeys (driverDelete st a) ↔ x ∈ driverKeys st ∧ x ≠ a := by
  simp only [driverDelete, driverKeys, List.mem_map, List.mem_filter]
  constructor
  · rintro ⟨p, ⟨hp, hpa⟩, rfl⟩
    exact ⟨⟨p, hp, rfl⟩, by simpa using hpa⟩
  · rintro ⟨⟨p, hp, rfl⟩, hxa⟩
    exact ⟨p, ⟨hp, by simpa using hxa⟩, rfl⟩

theorem driverKeys_put (st : DriverState) (k : Str) (v : List Nat) :
    driverKeys (driverPut st k v)
      = if (driverKeys st).contains k then driverKeys st else driverKeys st ++ [k] := by
  unfold driverPut
  by_cases h : (driverKeys st).contains k = true
  · rw [if_pos h, if_pos h]
    simp only [driverKeys, List.map_map]
    refine List.map_congr_left ?_
    intro p _
    by_cases hp : p.1 = k
    · simp [hp]
    · simp [hp]
  · rw [if_neg h, if_neg h]
    simp [driverKeys]

theorem driverKeys_put_mem (st : DriverState) (k x : Str) (v : List Nat) :
    x ∈ driverKeys (driverPut st k v) ↔ x ∈ driverKeys st ∨ x = k := by
  rw [driverKeys_put]
  split
  · next h =>
    constructor
    · exact Or.inl
    · rintro (hx | rfl)
      · exact hx
      · simpa [driverKeys] using h
  · next h =>
    simp

theorem foldl_delete_keys_mem (L : List Str) :
    ∀ (st : DriverState) (x : Str),
      x ∈ driverKeys (L.foldl driverDelete st) ↔ x ∈ driverKeys st ∧ x ∉ L := by
  induction L with
  | nil => intro st x; simp
  | cons a L ih =>
    intro st x
    rw [List.foldl_cons, ih, driverKeys_delete_mem]
    constructor
    · rintro ⟨⟨hx, hxa⟩, hxl⟩
      exact ⟨hx, by simp [hxa, hxl]⟩
    · rintro ⟨hx, hnotin⟩
      simp only [List.mem_cons, not_or] at hnotin
      exact ⟨⟨hx, hnotin.1⟩, hnotin.2⟩

theorem getChunkKeys_mem (baseKey x : Str) (keys : List Str) :
    x ∈ getChunkKeys baseKey keys
      ↔ x ∈ keys ∧ keyStartsWith x (baseKey ++ (":chunk:").toList) = true := by
  unfold getChunkKeys
  rw [(List.perm_insertionSort strLeRel _).mem_iff, List.mem_filter]

theorem keyStartsWith_append (a b : Str) : keyStartsWith (a ++ b) a = true := by
  induction a with
  | nil => cases b <;> rfl
  | cons c a ih => simpa [keyStartsWith] using ih

theorem keyStartsWith_self_append_ne (k : Str) (c : Char) (m : Str) :
    keyStartsWith k (k ++ c :: m) = false := by
  induction k with
  | nil => rfl
  | cons d k ih => simpa [keyStartsWith] using ih

theorem getChunkKey_ne_base (k : Str) (i : Nat) : getChunkKey k i ≠ k := by
  intro h
  have hlen := congrArg List.length h
  simp [getChunkKey] at hlen

theorem getChunkKey_marker (k : Str) (i : Nat) :
    keyStartsWith (getChunkKey k i) (k ++ (":chunk:").toList) = true := by
  unfold getChunkKey
  rw [List.append_assoc]
  rw [show (k ++ ((":chunk:").toList ++ pad6 i)) = (k ++ (":chunk:").toList) ++ pad6 i by
    rw [List.append_assoc]]
  exact keyStartsWith_append _ _

theorem foldl_put_chunk_keys_mem (k : Str) (chunks : List Chunk) :
    ∀ (st : DriverState) (x : Str),
      x ∈ driverKeys st ∨ (∃ c ∈ chunks, x = getChunkKey k c.index) →
      x ∈ driverKeys
        (chunks.foldl (fun acc c => driverPut acc (getChunkKey k c.index) c.data) st) := by
  induction chunks with
  | nil =>
    intro st x h
    rcases h with h | ⟨c, hc, -⟩
    · exact h
    · cases hc
  | cons c chunks ih =>
    intro st x h
    rw [List.foldl_cons]
    apply ih
    rcases h with h | ⟨c', hc', rfl⟩
    · exact Or.inl ((driverKeys_put_mem _ _ _ _).mpr (Or.inl h))
    · rcases List.mem_cons.mp hc' with rfl | hmem
      · exact Or.inl ((driverKeys_put_mem _ _ _ _).mpr (Or.inr rfl))
      · exact Or.inr ⟨c', hmem, rfl⟩

theorem chunkData_mem_zero (data : List Nat) (S : Nat) (hS : 0 < S) (hlen : S < data.length) :
    (⟨0, data.take S⟩ : Chunk) ∈ chunkData data S := by
  unfold chunkData
  rw [List.mem_map]
  refine ⟨0, ?_, by simp⟩
  rw [List.mem_range]
  have h1 : 1 ≤ (data.length + S - 1) / S := (Nat.one_le_div_iff hS).mpr (by omega)
  omega

theorem contains_true_iff (l : List Str) (x : Str) : l.contains x = true ↔ x ∈ l := by
  simp

/-- **C6.**  After every completed `persistAtom` call that actually persists
(the atom is marked persisted, has a storage key, and holds a value; the
chunk threshold is positive, as the 10 MiB default is — a zero threshold
would make the source's chunk loop diverge), the driver holds, for the base
key, either the single-value entry and no chunk entries, or at least one
chunk entry and no single-value entry — never both.  This holds for every
prior driver state, so in particular a value that shrinks out of (or grows
into) chunking leaves no stale keys of the other layout behind. -/
theorem persistAtom_layout (encode : Value → List Nat) (compressFn : List Nat → List Nat)
    (useCompression : Bool) (atom : ModelAtom) (st : DriverState) (thr now : Nat)
    (k : Str) (v : Value)
    (hpers : atom.meta.persisted = true) (hkey : atom.meta.key = some k)
    (hval : atom.value = some v) (hthr : 0 < thr) :
    (driverHas (persistAtom encode compressFn useCompression atom st thr now).1 k = true
        ∧ (driverKeys (persistAtom encode compressFn useCompression atom st thr now).1).filter
            (fun x => keyStartsWith x (k ++ (":chunk:").toList)) = [])
      ∨ (driverHas (persistAtom encode compressFn useCompression atom st thr now).1 k = false
        ∧ (driverKeys (persistAtom encode compressFn useCompression atom st thr now).1).filter
            (fun x => keyStartsWith x (k ++ (":chunk:").toList)) ≠ []) := by
  simp only [persistAtom, hpers, hkey, hval]
  by_cases hsz : thr < (if useCompression then compressFn (encode v) else encode v).length
  · rw [if_pos hsz]
    simp only []
    right
    constructor
    · rw [driverHas, Bool.eq_false_iff, Ne, contains_true_iff, driverKeys_delete_mem]
      rintro ⟨-, hne⟩
      exact hne rfl
    · apply List.ne_nil_of_mem (a := getChunkKey k 0)
      rw [List.mem_filter]
      refine ⟨?_, getChunkKey_marker k 0⟩
      rw [driverKeys_delete_mem]
      refine ⟨?_, getChunkKey_ne_base k 0⟩
      apply foldl_put_chunk_keys_mem
      refine Or.inr ⟨⟨0, (if useCompression then compressFn (encode v) else encode v).take thr⟩,
        chunkData_mem_zero _ thr hthr hsz, rfl⟩
  · rw [if_neg hsz]
    simp only []
    left
    constructor
    · rw [driverHas, contains_true_iff, driverKeys_put_mem]
      exact Or.inr rfl
    · rw [List.filter_eq_nil_iff]
      intro x hx
      rw [driverKeys_put_mem] at hx
      rcases hx with hx | rfl
      · rw [foldl_delete_keys_mem] at hx
        obtain ⟨hxs, hxnot⟩ := hx
        intro hmark
        exact hxnot ((getChunkKeys_mem k x (driverKeys st)).mpr ⟨hxs, hmark⟩)
      · have hsplit : (":chunk:").toList = ':' :: ("chunk:").toList := rfl
        rw [hsplit, keyStartsWith_self_append_ne]
        simp

/-- Witness for `persistAtom_layout`: a prior state holding *both* a stale
single value and a stale chunk for key `"a"`; persisting 3 bytes with
threshold 2 takes the chunked path, and the invariant holds afterwards. -/
theorem persistAtom_layout_witness :
    (driverHas (persistAtom (fun _ => [1, 2, 3]) id false
          ⟨some (Value.vNum 7), ⟨some ['a'], false, true, none, none⟩⟩
          [(getChunkKey ['a'] 0, [9]), (['a'], [8])] 2 5).1 ['a'] = true
        ∧ (driverKeys (persistAtom (fun _ => [1, 2, 3]) id false
            ⟨some (Value.vNum 7), ⟨some ['a'], false, true, none, none⟩⟩
            [(getChunkKey ['a'] 0, [9]), (['a'], [8])] 2 5).1).filter
              (fun x => keyStartsWith x (['a'] ++ (":chunk:").toList)) = [])
      ∨ (driverHas (persistAtom (fun _ => [1, 2, 3]) id false
          ⟨some (Value.vNum 7), ⟨some ['a'], false, true, none, none⟩⟩
          [(getChunkKey ['a'] 0, [9]), (['a'], [8])] 2 5).1 ['a'] = false
        ∧ (driverKeys (persistAtom (fun _ => [1, 2, 3]) id false
            ⟨some (Value.vNum 7), ⟨some ['a'], false, true, none, none⟩⟩
            [(getChunkKey ['a'] 0, [9]), (['a'], [8])] 2 5).1).filter
              (fun x => keyStartsWith x (['a'] ++ (":chunk:").toList)) ≠ []) :=
  persistAtom_layout (fun _ => [1, 2, 3]) id false
    ⟨some (Value.vNum 7), ⟨some ['a'], false, true, none, none⟩⟩
    [(getChunkKey ['a'] 0, [9]), (['a'], [8])] 2 5 ['a'] (Value.vNum 7)
    rfl rfl rfl (by decide)

/-! ## Patch application: atomicity -/

/-- **C8.**  `applyPatches` is all-or-nothing: if some prefix of the op list
applies cleanly and the next op throws, the whole call evaluates to that
error — the remaining ops are not applied and no partially-patched value is
returned (in this pure embedding of the copy-on-write source, the caller's
original value is untouched by construction). -/
theorem applyPatches_atomic (ops1 : List PatchOp) :
    ∀ (v u : Value) (op : PatchOp) (ops2 : List PatchOp) (e : String),
      applyPatches v ops1 = .ok u → applyPatch u op = .error e →
      applyPatches v (ops1 ++ op :: ops2) = .error e := by
  induction ops1 with
  | nil =>
    intro v u op ops2 e hok herr
    cases hok
    show applyPatches v (op :: ops2) = .error e
    unfold applyPatches
    rw [herr]
  | cons p rest ih =>
    intro v u op ops2 e hok herr
    rw [List.cons_append]
    unfold applyPatches at hok ⊢
    cases happ : applyPatch v p with
    | ok w =>
      rw [happ] at hok
      exact ih w u op ops2 e hok herr
    | error e' =>
      rw [happ] at hok
      cases hok

/-- Witness for `applyPatches_atomic`: a `set` applies cleanly, then a
`splice` aimed at a non-sequence throws; the whole call yields that error
even though another `set` follows. -/
theorem applyPatches_atomic_witness :
    applyPatches (Value.vObj [])
        ([PatchOp.set ['/', 'a'] (Value.vNum 1)]
          ++ PatchOp.splice ['/', 'a'] 0 1 none :: [PatchOp.set ['/', 'b'] (Value.vNum 2)])
      = .error "splice operation requires array at path" :=
  applyPatches_atomic [PatchOp.set ['/', 'a'] (Value.vNum 1)]
    (Value.vObj []) (Value.vObj [(['a'], Value.vNum 1)])
    (PatchOp.splice ['/', 'a'] 0 1 none) [PatchOp.set ['/', 'b'] (Value.vNum 2)]
    "splice operation requires array at path" rfl rfl

/-! ## Diff/apply round-trip failure and the splice root check -/

/-- **C1 (code bug).**  The spec's round-trip `Apply(a, Diff(a, b)) = b`
fails when `b` is a sequence shorter than `a` by more than one element: the
diff emits `Delete` ops at the trailing indices `1, 2, …` of the old array,
and applying them left-to-right re-indexes the array after each `splice`, so
the later deletes miss.  Here `a = [1, 2]`, `b = []`: the diff is
`[delete /0, delete /1]`, and applying it to `a` yields `[2]`, not `[]`. -/
theorem diff_apply_shrink_cex :
    generatePatches (Value.vArr [Value.vNum 1, Value.vNum 2]) (Value.vArr []) []
        = [PatchOp.delete ['/', '0'], PatchOp.delete ['/', '1']]
      ∧ applyPatches (Value.vArr [Value.vNum 1, Value.vNum 2])
          (generatePatches (Value.vArr [Value.vNum 1, Value.vNum 2]) (Value.vArr []) [])
        = .ok (Value.vArr [Value.vNum 2])
      ∧ Value.vArr [Value.vNum 2] ≠ Value.vArr [] := by
  have hfuel : valueSize (Value.vArr [Value.vNum 1, Value.vNum 2])
      + valueSize (Value.vArr []) = 6 := by
    simp [valueSize, valueListSize]
  have h1 : generatePatches (Value.vArr [Value.vNum 1, Value.vNum 2]) (Value.vArr []) []
      = [PatchOp.delete ['/', '0'], PatchOp.delete ['/', '1']] := by
    unfold generatePatches
    rw [hfuel]
    rfl
  refine ⟨h1, by rw [h1]; rfl, by simp⟩

/-- **C7 (code bug).**  `applyPatch` rejects every `splice` whose *root*
value is not an array — even when the container addressed by the op's path
(its last segment is the splice index) is a sequence.  Here the root is a
keyed map whose field `"a"` holds the sequence `[1, 2]`: the addressed
container is that sequence, yet the op throws; the same splice succeeds once
the root itself is an array. -/
theorem applyPatch_splice_root_cex :
    applyPatch (Value.vObj [(['a'], Value.vArr [Value.vNum 1, Value.vNum 2])])
        (PatchOp.splice ['/', 'a', '/', '0'] 0 1 none)
      = .error "splice operation requires array at path"
    ∧ getValueAtPath (Value.vObj [(['a'], Value.vArr [Value.vNum 1, Value.vNum 2])])
        ((stringToPath ['/', 'a', '/', '0']).dropLast)
      = Value.vArr [Value.vNum 1, Value.vNum 2]
    ∧ applyPatch (Value.vArr [Value.vArr [Value.vNum 1, Value.vNum 2]])
        (PatchOp.splice ['/', '0', '/', '0'] 0 1 none)
      = .ok (Value.vArr [Value.vArr [Value.vNum 2]]) :=
  ⟨rfl, rfl, rfl⟩

/-! ## Set-then-read -/

theorem lookupField_setField (fields : List (Str × Value)) (key : Str) (val : Value) :
    lookupField (setField fields key val) key = val := by
  induction fields with
  | nil => simp [setField, lookupField]
  | cons p rest ih =>
    unfold setField
    by_cases hp : p.1 = key
    · rw [if_pos hp]
      simp [lookupField]
    · rw [if_neg hp]
      show lookupField ((p.1, p.2) :: setField rest key val) key = val
      unfold lookupField
      rw [if_neg hp]
      exact ih

theorem padAssign_length (xs : List Value) (n : Nat) (v : Value) :
    (padAssign xs n v).length = if n < xs.length then xs.length else n + 1 := by
  unfold padAssign
  split
  · next h => simp [if_pos h]
  · next h =>
    simp only [List.length_append, List.length_replicate, List.length_cons, List.length_nil]
    omega

theorem padAssign_lt_length (xs : List Value) (n : Nat) (v : Value) :
    n < (padAssign xs n v).length := by
  rw [padAssign_length]
  split <;> omega

theorem padAssign_getElem (xs : List Value) (n : Nat) (v : Value)
    (h : n < (padAssign xs n v).length) : (padAssign xs n v)[n] = v := by
  unfold padAssign at h ⊢
  split
  · next hn => exact List.getElem_set_self ..
  · next hn =>
    rw [List.getElem_append_right (by simp; omega)]
    have h0 : n - (xs ++ List.replicate (n - xs.length) Value.vUndef).length = 0 := by
      simp
      omega
    simp [h0]

theorem jsIndex_pos (xs : List Value) (i : Int) (h : 0 ≤ i ∧ i.toNat < xs.length) :
    jsIndex xs i = xs[i.toNat] := by
  unfold jsIndex
  rw [dif_pos h]

/-- The creation branch of `setValueAtPath` (reached from `null`, `undefined`
and the scalars): the assigned value reads back under `setReadOk`. -/
theorem get_set_creation (seg : Seg) (rest : List Seg)
    (ih : ∀ (v x : Value), setReadOk v rest = true →
        getValueAtPath (setValueAtPath v rest x) rest = x)
    (x : Value) (h : setReadOk Value.vNull (seg :: rest) = true) :
    getValueAtPath (setValueAtPath Value.vNull (seg :: rest) x) (seg :: rest) = x := by
  cases seg with
  | num i =>
    have h' := h
    simp only [setReadOk, Bool.and_eq_true, decide_eq_true_eq] at h'
    obtain ⟨⟨h0, h32⟩, hrec⟩ := h'
    simp only [setValueAtPath, if_pos (show 0 ≤ i ∧ i < 4294967295 from ⟨h0, h32⟩)]
    simp only [getValueAtPath, segIdx?]
    have hb : 0 ≤ i ∧ i.toNat < (List.replicate i.toNat Value.vUndef
        ++ [setValueAtPath Value.vUndef rest x]).length := ⟨h0, by simp⟩
    rw [if_pos hb, jsIndex_pos _ _ hb]
    rw [List.getElem_append_right (by simp)]
    have hz : i.toNat - (List.replicate i.toNat Value.vUndef).length = 0 := by simp
    simp only [hz, List.getElem_cons_zero]
    exact ih _ x hrec
  | str s =>
    by_cases hrest : rest = []
    · subst hrest
      simp only [setValueAtPath]
      rw [if_neg (by rintro ⟨-, hc⟩; exact hc rfl)]
      simp only [getValueAtPath, segToString]
      simp [lookupField]
    · by_cases hns : jsNumericStr s = true
      · cases hjs : jsNumber? s with
        | none =>
          exfalso
          simp [setReadOk, hrest, hns, hjs] at h
        | some k =>
          have h' : (0 ≤ k ∧ k < 4294967295) ∧ setReadOk Value.vUndef rest = true := by
            simpa [setReadOk, hrest, hns, hjs, and_assoc] using h
          obtain ⟨⟨h0, h32⟩, hrec⟩ := h'
          simp only [setValueAtPath]
          rw [if_pos ⟨hns, hrest⟩]
          simp only [hjs]
          rw [if_pos (show 0 ≤ k ∧ k < 4294967295 from ⟨h0, h32⟩)]
          simp only [getValueAtPath, segIdx?, hjs]
          have hb : 0 ≤ k ∧ k.toNat < (List.replicate k.toNat Value.vUndef
              ++ [setValueAtPath Value.vUndef rest x]).length := ⟨h0, by simp⟩
          rw [if_pos hb, jsIndex_pos _ _ hb]
          rw [List.getElem_append_right (by simp)]
          have hz : k.toNat - (List.replicate k.toNat Value.vUndef).length = 0 := by simp
          simp only [hz, List.getElem_cons_zero]
          exact ih _ x hrec
      · have h' : s ≠ protoKey ∧ setReadOk Value.vUndef rest = true := by
          simpa [setReadOk, hrest, hns] using h
        obtain ⟨-, hrec⟩ := h'
        simp only [setValueAtPath]
        rw [if_neg (by rintro ⟨hb, -⟩; exact hns hb)]
        simp only [getValueAtPath, segToString]
        rw [show lookupField [(s, setValueAtPath Value.vUndef rest x)] s
            = setValueAtPath Value.vUndef rest x by simp [lookupField]]
        exact ih _ x hrec

/-- **C9, amended.**  Reading `p` after `Set(p, x)` yields `x` on the domain
`setReadOk`: sequence steps must denote an exact integer array index
(`0 ≤ i < 2^32 - 1`), a final sequence index *equal* to the length appends,
but a final index strictly beyond the length (excluded from `setReadOk`, see
`set_beyond_length_cex`) leaves the sequence unchanged; map keys are
arbitrary except `"__proto__"` (whose assignment hits the prototype
accessor); creation under scalar/nullish nodes makes a map for a final or
non-`Number`-parseable string head and a sequence for a number or
integer-valued numeric-string head, while numeric heads with non-integer
values (`"1.5"`) are excluded — the code then creates a sequence but stores
the value under a non-index property, where the read-back yields
`undefined`. -/
theorem get_set_of_setReadOk :
    ∀ (p : List Seg) (v x : Value), setReadOk v p = true →
      getValueAtPath (setValueAtPath v p x) p = x := by
  intro p
  induction p with
  | nil =>
    intro v x _
    simp only [setValueAtPath, getValueAtPath]
  | cons seg rest ih =>
    intro v x h
    cases v with
    | vArr xs =>
      cases hseg : segIdx? seg with
      | none =>
        simp only [setReadOk, hseg] at h
        exact Bool.noConfusion h
      | some i =>
        by_cases hrest : rest = []
        · subst hrest
          have h' : 0 ≤ i ∧ i ≤ (xs.length : Int) ∧ i < 4294967295 := by
            simpa [setReadOk, hseg, and_assoc] using h
          obtain ⟨h0, h1, -⟩ := h'
          simp only [setValueAtPath, hseg, if_true]
          by_cases hlt : i.toNat < xs.length
          · rw [if_pos ⟨h0, hlt⟩]
            simp only [getValueAtPath, hseg]
            have hb : 0 ≤ i ∧ i.toNat < (xs.set i.toNat x).length := ⟨h0, by simpa using hlt⟩
            rw [if_pos hb, jsIndex_pos _ _ hb]
            rw [List.getElem_set_self]
          · have hi : i = (xs.length : Int) := by omega
            rw [if_neg (by rintro ⟨-, hc⟩; exact hlt hc), if_pos hi]
            simp only [getValueAtPath, hseg]
            have hb : 0 ≤ i ∧ i.toNat < (xs ++ [x]).length := ⟨h0, by simp; omega⟩
            rw [if_pos hb, jsIndex_pos _ _ hb]
            rw [List.getElem_append_right (by omega)]
            have hz : i.toNat - xs.length = 0 := by omega
            simp only [hz, List.getElem_cons_zero]
        · have h' : 0 ≤ i ∧ i < 4294967295 ∧ setReadOk (jsIndex xs i) rest = true := by
            simpa [setReadOk, hseg, hrest, and_assoc] using h
          obtain ⟨h0, h32, hrec⟩ := h'
          simp only [setValueAtPath, hseg]
          rw [if_neg hrest, if_pos (show 0 ≤ i ∧ i < 4294967295 from ⟨h0, h32⟩)]
          simp only [getValueAtPath, hseg]
          have hb : 0 ≤ i ∧ i.toNat < (padAssign xs i.toNat
              (setValueAtPath (jsIndex xs i) rest x)).length :=
            ⟨h0, padAssign_lt_length _ _ _⟩
          rw [if_pos hb, jsIndex_pos _ _ hb]
          rw [padAssign_getElem _ _ _ hb.2]
          exact ih _ x hrec
    | vObj fields =>
      by_cases hrest : rest = []
      · subst hrest
        simp only [setValueAtPath, if_true]
        simp only [getValueAtPath, lookupField_setField]
      · have h' : segToString seg ≠ protoKey
            ∧ setReadOk (lookupField fields (segToString seg)) rest = true := by
          simpa [setReadOk, hrest] using h
        obtain ⟨-, hrec⟩ := h'
        simp only [setValueAtPath]
        rw [if_neg hrest]
        simp only [getValueAtPath, lookupField_setField]
        exact ih _ x hrec
    | vBuf bytes =>
      by_cases hrest : rest = []
      · subst hrest
        simp only [setValueAtPath, if_true]
        simp only [getValueAtPath]
        rw [show lookupField [(segToString seg, x)] (segToString seg) = x by
          simp [lookupField]]
      · have h' : segToString seg ≠ protoKey ∧ setReadOk Value.vUndef rest = true := by
          simpa [setReadOk, hrest] using h
        obtain ⟨-, hrec⟩ := h'
        simp only [setValueAtPath]
        rw [if_neg hrest]
        simp only [getValueAtPath]
        rw [show lookupField [(segToString seg, setValueAtPath Value.vUndef rest x)]
            (segToString seg) = setValueAtPath Value.vUndef rest x by simp [lookupField]]
        exact ih _ x hrec
    | vNull => exact get_set_creation seg rest ih x h
    | vUndef => exact get_set_creation seg rest ih x h
    | vBool b => exact get_set_creation seg rest ih x h
    | vNum n => exact get_set_creation seg rest ih x h
    | vStr s => exact get_set_creation seg rest ih x h

/-- **C9, counterexample to the claim as stated.**  Setting a sequence index
*strictly beyond* the current length is a silent no-op (`setValueAtPath`
falls through its bounds checks and returns the copied array unchanged), so
reading the path back yields `undefined`, not the written value: here
`Set([1], 5)` on the empty array. -/
theorem set_beyond_length_cex :
    setValueAtPath (Value.vArr []) [Seg.num 1] (Value.vNum 5) = Value.vArr []
      ∧ getValueAtPath (setValueAtPath (Value.vArr []) [Seg.num 1] (Value.vNum 5)) [Seg.num 1]
        = Value.vUndef
      ∧ Value.vUndef ≠ Value.vNum 5 :=
  ⟨rfl, rfl, by simp⟩

/-- Witness for `get_set_of_setReadOk`: replacing the element at the in-range
index 1 fails, appending at index 1 (equal to the length) succeeds — here the
path descends through a map field into a one-element sequence and appends. -/
theorem get_set_witness :
    getValueAtPath
        (setValueAtPath (Value.vObj [(['a'], Value.vArr [Value.vNum 1])])
          [Seg.str ['a'], Seg.num 1] (Value.vNum 9))
        [Seg.str ['a'], Seg.num 1]
      = Value.vNum 9 :=
  get_set_of_setReadOk [Seg.str ['a'], Seg.num 1]
    (Value.vObj [(['a'], Value.vArr [Value.vNum 1])]) (Value.vNum 9) rfl
